import Mathlib

/-!
Verification development for the Wholesale-PriceX scraper core
(`src/scraper.py`).

The Python source is shallowly embedded: strings are Lean `String`s
(lists of unicode code points), Python string operations (`lower`,
`title`, `strip`, `split`, substring containment) are modelled
character-by-character on the code points, with the ASCII case table
(Python's behaviour on the ASCII texts this program handles).
Regular-expression uses in the source are hand-compiled to explicit
recursive matchers, one per pattern, preserving scan order, greediness
and alternation order.  Document trees are an inductive type mirroring
the parsed-markup interface the code consumes (tag, attributes,
children, flattened text).
-/

/-! ## Character primitives -/

/-- ASCII lower-casing of one character, as done by Python `str.lower`
on the ASCII range. -/
def lowerChar (c : Char) : Char :=
  if 65 ≤ c.toNat ∧ c.toNat ≤ 90 then Char.ofNat (c.toNat + 32) else c

/-- ASCII upper-casing of one character. -/
def upperChar (c : Char) : Char :=
  if 97 ≤ c.toNat ∧ c.toNat ≤ 122 then Char.ofNat (c.toNat - 32) else c

/-- ASCII letter test (Python `str.isalpha` on the ASCII range). -/
def isAsciiLetter (c : Char) : Bool :=
  decide ((65 ≤ c.toNat ∧ c.toNat ≤ 90) ∨ (97 ≤ c.toNat ∧ c.toNat ≤ 122))

/-- ASCII digit test (regex `\d`). -/
def isAsciiDigit (c : Char) : Bool :=
  decide (48 ≤ c.toNat ∧ c.toNat ≤ 57)

/-- Whitespace test (regex `\s`, Python `str.split` separators):
space, tab, newline, vertical tab, form feed, carriage return. -/
def isWsChar (c : Char) : Bool :=
  decide (c.toNat = 32 ∨ (9 ≤ c.toNat ∧ c.toNat ≤ 13))

/-- Membership in the strip set `'(),'` used by
`extract_base_item_name`. -/
def inParen (c : Char) : Bool :=
  decide (c.toNat = 40 ∨ c.toNat = 41 ∨ c.toNat = 44)

/-- Word-character test (regex `\w`, for `\b` boundaries). -/
def isWordChar (c : Char) : Bool :=
  isAsciiLetter c || isAsciiDigit c || c == '_'

theorem toNat_ofNat_of_lt (n : Nat) (h : n < 55296) : (Char.ofNat n).toNat = n := by
  unfold Char.ofNat
  rw [dif_pos (Or.inl h)]
  simp [Char.ofNatAux, Char.toNat, UInt32.toNat]

theorem char_eq_of_toNat_eq {c d : Char} (h : c.toNat = d.toNat) : c = d := by
  rw [← Char.ofNat_toNat c, ← Char.ofNat_toNat d, h]

theorem toNat_lowerChar (c : Char) :
    (lowerChar c).toNat = if 65 ≤ c.toNat ∧ c.toNat ≤ 90 then c.toNat + 32 else c.toNat := by
  unfold lowerChar
  split
  · next h => exact toNat_ofNat_of_lt _ (by omega)
  · rfl

theorem toNat_upperChar (c : Char) :
    (upperChar c).toNat = if 97 ≤ c.toNat ∧ c.toNat ≤ 122 then c.toNat - 32 else c.toNat := by
  unfold upperChar
  split
  · next h => exact toNat_ofNat_of_lt _ (by omega)
  · rfl

theorem bool_eq_of_iff {a b : Bool} (h : a = true ↔ b = true) : a = b := by
  cases a <;> cases b <;> simp_all

theorem lowerChar_lowerChar (c : Char) : lowerChar (lowerChar c) = lowerChar c := by
  apply char_eq_of_toNat_eq
  simp only [toNat_lowerChar]
  split_ifs <;> omega

theorem lowerChar_upperChar (c : Char) : lowerChar (upperChar c) = lowerChar c := by
  apply char_eq_of_toNat_eq
  simp only [toNat_lowerChar, toNat_upperChar]
  split_ifs <;> omega

theorem upperChar_upperChar (c : Char) : upperChar (upperChar c) = upperChar c := by
  apply char_eq_of_toNat_eq
  simp only [toNat_upperChar]
  split_ifs <;> omega

theorem isAsciiLetter_lowerChar (c : Char) : isAsciiLetter (lowerChar c) = isAsciiLetter c := by
  apply bool_eq_of_iff
  simp only [isAsciiLetter, toNat_lowerChar, decide_eq_true_eq]
  split_ifs <;> omega

theorem isAsciiLetter_upperChar (c : Char) : isAsciiLetter (upperChar c) = isAsciiLetter c := by
  apply bool_eq_of_iff
  simp only [isAsciiLetter, toNat_upperChar, decide_eq_true_eq]
  split_ifs <;> omega

theorem isWsChar_lowerChar (c : Char) : isWsChar (lowerChar c) = isWsChar c := by
  apply bool_eq_of_iff
  simp only [isWsChar, toNat_lowerChar, decide_eq_true_eq]
  split_ifs <;> omega

theorem isWsChar_upperChar (c : Char) : isWsChar (upperChar c) = isWsChar c := by
  apply bool_eq_of_iff
  simp only [isWsChar, toNat_upperChar, decide_eq_true_eq]
  split_ifs <;> omega

theorem inParen_lowerChar (c : Char) : inParen (lowerChar c) = inParen c := by
  apply bool_eq_of_iff
  simp only [inParen, toNat_lowerChar, decide_eq_true_eq]
  split_ifs <;> omega

theorem inParen_upperChar (c : Char) : inParen (upperChar c) = inParen c := by
  apply bool_eq_of_iff
  simp only [inParen, toNat_upperChar, decide_eq_true_eq]
  split_ifs <;> omega

/-! ## String primitives -/

/-- Python `str.lower` (ASCII model). -/
def pyLower (s : String) : String := ⟨s.data.map lowerChar⟩

/-- One step of Python `str.title`: the flag records whether the
previous character was a letter; a letter after a non-letter is
upper-cased, a letter after a letter is lower-cased. -/
def titleMap : Bool → List Char → List Char
  | _, [] => []
  | prevAlpha, c :: cs =>
    (if isAsciiLetter c then (if prevAlpha then lowerChar c else upperChar c) else c)
      :: titleMap (isAsciiLetter c) cs

/-- Python `str.title` (ASCII model). -/
def pyTitle (s : String) : String := ⟨titleMap false s.data⟩

/-- Strip characters satisfying `p` from both ends of a character
list (Python `str.strip(chars)` / `str.strip()`). -/
def stripEnds (p : Char → Bool) (l : List Char) : List Char :=
  ((l.dropWhile p).reverse.dropWhile p).reverse

/-- Python `str.strip()` (whitespace). -/
def pyStrip (s : String) : String := ⟨stripEnds isWsChar s.data⟩

/-- Python `str.strip('(),')`. -/
def stripParens (s : String) : String := ⟨stripEnds inParen s.data⟩

/-- Prefix test on character lists. -/
def isPre : List Char → List Char → Bool
  | [], _ => true
  | _ :: _, [] => false
  | a :: as, b :: bs => a == b && isPre as bs

/-- Substring containment on character lists (Python `in`). -/
def subIn (needle : List Char) : List Char → Bool
  | [] => isPre needle []
  | c :: t => isPre needle (c :: t) || subIn needle t

/-- Python `needle in hay` on strings. -/
def containsSub (hay needle : String) : Bool := subIn needle.data hay.data

/-- Python `str.split()` worker: accumulate the current word
(reversed) and cut at whitespace runs. -/
def wordsAux : List Char → List Char → List (List Char)
  | [], acc => if acc.isEmpty then [] else [acc.reverse]
  | c :: cs, acc =>
    if isWsChar c then
      (if acc.isEmpty then wordsAux cs [] else acc.reverse :: wordsAux cs [])
    else wordsAux cs (c :: acc)

/-- Python `str.split()` (split on whitespace runs, no empty parts). -/
def pySplit (s : String) : List String := (wordsAux s.data []).map (fun l => ⟨l⟩)

/-! ## Facts about the string primitives -/

theorem isPre_iff (n h : List Char) : isPre n h = true ↔ ∃ t, n ++ t = h := by
  induction n generalizing h with
  | nil => simp [isPre]
  | cons a as ih =>
    cases h with
    | nil => simp [isPre]
    | cons b bs =>
      simp only [isPre, Bool.and_eq_true, beq_iff_eq, ih, List.cons_append, List.cons.injEq]
      constructor
      · rintro ⟨rfl, t, rfl⟩
        exact ⟨t, rfl, rfl⟩
      · rintro ⟨t, rfl, rfl⟩
        exact ⟨rfl, t, rfl⟩

theorem subIn_iff (n h : List Char) : subIn n h = true ↔ ∃ s t, s ++ n ++ t = h := by
  induction h with
  | nil =>
    simp only [subIn, isPre_iff]
    constructor
    · rintro ⟨t, ht⟩
      exact ⟨[], t, by simpa using ht⟩
    · rintro ⟨s, t, ht⟩
      have hs : s = [] := by
        cases s with
        | nil => rfl
        | cons x xs => simp at ht
      subst hs
      exact ⟨t, by simpa using ht⟩
  | cons c t ih =>
    simp only [subIn, Bool.or_eq_true, isPre_iff, ih]
    constructor
    · rintro (⟨u, hu⟩ | ⟨s, u, hu⟩)
      · exact ⟨[], u, by simpa using hu⟩
      · exact ⟨c :: s, u, by simp [hu]⟩
    · rintro ⟨s, u, hu⟩
      cases s with
      | nil => exact Or.inl ⟨u, by simpa using hu⟩
      | cons x xs =>
        simp only [List.cons_append, List.cons.injEq] at hu
        exact Or.inr ⟨xs, u, by simp [hu.1, hu.2]⟩

theorem containsSub_self (s : String) : containsSub s s = true := by
  rw [containsSub, subIn_iff]
  exact ⟨[], [], by simp⟩

theorem containsSub_trans {a b c : String}
    (h1 : containsSub b a = true) (h2 : containsSub c b = true) :
    containsSub c a = true := by
  rw [containsSub, subIn_iff] at h1 h2 ⊢
  obtain ⟨s1, t1, h1⟩ := h1
  obtain ⟨s2, t2, h2⟩ := h2
  exact ⟨s2 ++ s1, t1 ++ t2, by rw [← h2, ← h1]; simp⟩

theorem titleMap_length (flag : Bool) (l : List Char) :
    (titleMap flag l).length = l.length := by
  induction l generalizing flag with
  | nil => rfl
  | cons c cs ih => simp [titleMap, ih]

theorem map_lowerChar_titleMap (flag : Bool) (l : List Char) :
    (titleMap flag l).map lowerChar = l.map lowerChar := by
  induction l generalizing flag with
  | nil => rfl
  | cons c cs ih =>
    simp only [titleMap, List.map_cons, ih]
    congr 1
    split
    · split
      · exact lowerChar_lowerChar c
      · exact lowerChar_upperChar c
    · rfl

theorem pyLower_pyTitle (s : String) : pyLower (pyTitle s) = pyLower s := by
  simp [pyLower, pyTitle, map_lowerChar_titleMap]

theorem titleMap_titleMap (flag : Bool) (l : List Char) :
    titleMap flag (titleMap flag l) = titleMap flag l := by
  induction l generalizing flag with
  | nil => rfl
  | cons c cs ih =>
    simp only [titleMap]
    by_cases hc : isAsciiLetter c = true
    · by_cases hf : flag = true
      · subst hf
        simp only [hc, if_true, titleMap, isAsciiLetter_lowerChar, lowerChar_lowerChar, ih]
      · have hf' : flag = false := by simpa using hf
        subst hf'
        simp only [hc, if_true, Bool.false_eq_true, if_false, titleMap,
          isAsciiLetter_upperChar, upperChar_upperChar, ih]
    · have hc' : isAsciiLetter c = false := by simpa using hc
      simp only [hc', Bool.false_eq_true, if_false, titleMap, ih]

theorem pyTitle_pyTitle (s : String) : pyTitle (pyTitle s) = pyTitle s := by
  simp [pyTitle, titleMap_titleMap]

/-- Every character of `titleMap flag l` is the image of some character
of `l` under the identity, `lowerChar`, or `upperChar`. -/
theorem titleMap_mem (flag : Bool) (l : List Char) {c : Char}
    (h : c ∈ titleMap flag l) :
    ∃ c0 ∈ l, c = c0 ∨ c = lowerChar c0 ∨ c = upperChar c0 := by
  induction l generalizing flag with
  | nil => simp [titleMap] at h
  | cons a as ih =>
    simp only [titleMap, List.mem_cons] at h
    rcases h with h | h
    · refine ⟨a, List.mem_cons_self a as, ?_⟩
      subst h
      split
      · split
        · exact Or.inr (Or.inl rfl)
        · exact Or.inr (Or.inr rfl)
      · exact Or.inl rfl
    · obtain ⟨c0, hc0, hor⟩ := ih _ h
      exact ⟨c0, List.mem_cons_of_mem a hc0, hor⟩

theorem map_invariant_titleMap {P : Char → Bool}
    (hP : ∀ c, P (lowerChar c) = P c ∧ P (upperChar c) = P c)
    (flag : Bool) (l : List Char) :
    (titleMap flag l).map P = l.map P := by
  induction l generalizing flag with
  | nil => rfl
  | cons c cs ih =>
    simp only [titleMap, List.map_cons, ih]
    congr 1
    split
    · split
      · exact (hP c).1
      · exact (hP c).2
    · rfl

/-- `stripEnds` keeps an infix of the input. -/
theorem stripEnds_sub (p : Char → Bool) (l : List Char) :
    ∃ s t, s ++ stripEnds p l ++ t = l := by
  obtain ⟨s1, h1⟩ : ∃ s1, s1 ++ l.dropWhile p = l := by
    have h := List.dropWhile_suffix (l := l) p
    obtain ⟨s1, h1⟩ := h
    exact ⟨s1, h1⟩
  obtain ⟨s2, h2⟩ : ∃ s2, s2 ++ (l.dropWhile p).reverse.dropWhile p = (l.dropWhile p).reverse := by
    have h := List.dropWhile_suffix (l := (l.dropWhile p).reverse) p
    obtain ⟨s2, h2⟩ := h
    exact ⟨s2, h2⟩
  refine ⟨s1, s2.reverse, ?_⟩
  have h3 : stripEnds p l ++ s2.reverse = l.dropWhile p := by
    have := congrArg List.reverse h2
    simpa [stripEnds, List.reverse_append] using this
  rw [List.append_assoc, h3, h1]

/-- The head of a nonempty `dropWhile` result falsifies the predicate. -/
theorem dropWhile_head_false {p : Char → Bool} {l : List Char} {c : Char} {t : List Char}
    (h : l.dropWhile p = c :: t) : p c = false := by
  induction l with
  | nil => simp [List.dropWhile] at h
  | cons a as ih =>
    rw [List.dropWhile_cons] at h
    split at h
    · exact ih h
    · next hp =>
      cases h
      simpa using hp

theorem dropWhile_eq_self_of_head {p : Char → Bool} {l : List Char}
    (h : ∀ c t, l = c :: t → p c = false) : l.dropWhile p = l := by
  cases l with
  | nil => rfl
  | cons a as =>
    rw [List.dropWhile_cons, h a as rfl]
    simp

/-- If neither end of `l` satisfies `p`, then `stripEnds p` leaves `l`
unchanged. -/
theorem stripEnds_eq_self {p : Char → Bool} {l : List Char}
    (hhead : ∀ c, l.head? = some c → p c = false)
    (hlast : ∀ c, l.getLast? = some c → p c = false) :
    stripEnds p l = l := by
  have h1 : l.dropWhile p = l := by
    apply dropWhile_eq_self_of_head
    intro c t hct
    exact hhead c (by rw [hct]; rfl)
  have h2 : l.reverse.dropWhile p = l.reverse := by
    apply dropWhile_eq_self_of_head
    intro c t hct
    apply hlast c
    rw [← List.head?_reverse, hct]
    rfl
  rw [stripEnds, h1, h2, List.reverse_reverse]

/-- The head of a (possibly empty) `stripEnds` result falsifies the
predicate. -/
theorem stripEnds_head {p : Char → Bool} {l : List Char} {c : Char}
    (hc : (stripEnds p l).head? = some c) : p c = false := by
  rw [stripEnds, List.head?_reverse] at hc
  have hBne : (l.dropWhile p).reverse.dropWhile p ≠ [] := by
    intro hB
    rw [hB] at hc
    simp at hc
  obtain ⟨s, hs⟩ : ∃ s, s ++ (l.dropWhile p).reverse.dropWhile p = (l.dropWhile p).reverse := by
    obtain ⟨s, hs⟩ := List.dropWhile_suffix (l := (l.dropWhile p).reverse) p
    exact ⟨s, hs⟩
  have hlast2 : ((l.dropWhile p).reverse).getLast? = some c := by
    rw [← hs, List.getLast?_append_of_ne_nil _ hBne]
    exact hc
  rw [List.getLast?_reverse] at hlast2
  rcases hdl : l.dropWhile p with _ | ⟨y, ys⟩
  · rw [hdl] at hlast2
    simp at hlast2
  · have hy : y = c := by
      rw [hdl] at hlast2
      simpa using hlast2
    subst hy
    exact dropWhile_head_false hdl

/-- The last character of a `stripEnds` result falsifies the
predicate. -/
theorem stripEnds_last {p : Char → Bool} {l : List Char} {c : Char}
    (hc : (stripEnds p l).getLast? = some c) : p c = false := by
  rw [stripEnds, List.getLast?_reverse] at hc
  rcases hdw : (l.dropWhile p).reverse.dropWhile p with _ | ⟨x, xs⟩
  · rw [hdw] at hc
    simp at hc
  · rw [hdw] at hc
    simp only [List.head?_cons, Option.some.injEq] at hc
    subst hc
    exact dropWhile_head_false hdw

/-- Stripping is idempotent. -/
theorem stripEnds_stripEnds (p : Char → Bool) (l : List Char) :
    stripEnds p (stripEnds p l) = stripEnds p l := by
  apply stripEnds_eq_self
  · intro c hc
    exact stripEnds_head hc
  · intro c hc
    exact stripEnds_last hc

/-- Words produced by `wordsAux` are infixes of the scanned text. -/
theorem wordsAux_sub (cs : List Char) (acc : List Char) {w : List Char}
    (h : w ∈ wordsAux cs acc) : ∃ s t, s ++ w ++ t = acc.reverse ++ cs := by
  induction cs generalizing acc with
  | nil =>
    simp only [wordsAux] at h
    split at h
    · simp at h
    · simp only [List.mem_singleton] at h
      subst h
      exact ⟨[], [], by simp⟩
  | cons c cs ih =>
    simp only [wordsAux] at h
    split at h
    · split at h
      · obtain ⟨s, t, hst⟩ := ih [] h
        next hws hacc =>
        refine ⟨acc.reverse ++ c :: s, t, ?_⟩
        simp only [List.reverse_nil, List.nil_append] at hst
        simp [← hst]
      · rcases List.mem_cons.mp h with rfl | h2
        · exact ⟨[], c :: cs, by simp⟩
        · obtain ⟨s, t, hst⟩ := ih [] h2
          simp only [List.reverse_nil, List.nil_append] at hst
          exact ⟨acc.reverse ++ c :: s, t, by simp [← hst]⟩
    · obtain ⟨s, t, hst⟩ := ih (c :: acc) h
      refine ⟨s, t, ?_⟩
      rw [hst]
      simp

/-- Characters of words produced by `wordsAux` are non-whitespace,
provided the accumulator holds only non-whitespace characters. -/
theorem wordsAux_nonws (cs : List Char) (acc : List Char)
    (hacc : ∀ c ∈ acc, isWsChar c = false) {w : List Char}
    (h : w ∈ wordsAux cs acc) : ∀ c ∈ w, isWsChar c = false := by
  induction cs generalizing acc with
  | nil =>
    simp only [wordsAux] at h
    split at h
    · simp at h
    · simp only [List.mem_singleton] at h
      subst h
      intro c hc
      exact hacc c (by simpa using hc)
  | cons c cs ih =>
    simp only [wordsAux] at h
    split at h
    · split at h
      · exact ih [] (by simp) h
      · rcases List.mem_cons.mp h with rfl | h2
        · intro d hd
          exact hacc d (by simpa using hd)
        · exact ih [] (by simp) h2
    · next hws =>
      refine ih (c :: acc) ?_ h
      intro d hd
      rcases List.mem_cons.mp hd with rfl | hd2
      · simpa using hws
      · exact hacc d hd2

/-- On a nonempty all-non-whitespace text, `wordsAux` yields a single
word: the text itself (prefixed by the reversed accumulator). -/
theorem wordsAux_single (cs : List Char) (hcs : ∀ c ∈ cs, isWsChar c = false)
    (acc : List Char) :
    wordsAux cs acc =
      if (acc.reverse ++ cs).isEmpty then [] else [acc.reverse ++ cs] := by
  induction cs generalizing acc with
  | nil => simp [wordsAux, List.isEmpty_iff]
  | cons c cs ih =>
    have hc : isWsChar c = false := hcs c (List.mem_cons_self c cs)
    simp only [wordsAux, hc, Bool.false_eq_true, if_false]
    rw [ih (fun d hd => hcs d (List.mem_cons_of_mem c hd)) (c :: acc)]
    simp

/-! ## Base-Item Normalizer (`extract_base_item_name`) -/

/-- The ordered keyword dictionary of `extract_base_item_name`
(vegetables first, then fruits), verbatim from the source. -/
def base_items : List String := [
  "cauliflower", "carrot", "potato", "tomato", "onion", "cabbage",
  "brinjal", "eggplant", "capsicum", "bell pepper", "cucumber",
  "bottle gourd", "ridge gourd", "bitter gourd", "pumpkin", "beans",
  "okra", "ladyfinger", "spinach", "coriander", "mint", "curry leaves",
  "ginger", "garlic", "beetroot", "radish", "turnip", "green chilli",
  "red chilli", "drumstick", "cluster beans", "french beans",
  "peas", "sweet corn", "baby corn", "mushroom", "lettuce",
  "broccoli", "zucchini", "celery", "leek", "spring onion",
  "green onion", "fenugreek", "methi", "palak", "dhaniya",
  "pudina", "bhindi", "karela", "lauki", "tinda", "parwal",
  "arbi", "colocasia", "yam", "sweet potato", "tapioca",
  "apple", "banana", "orange", "mango", "grapes", "watermelon",
  "papaya", "pineapple", "pomegranate", "guava", "lemon", "lime",
  "kiwi", "strawberry", "blueberry", "cherry", "peach", "plum",
  "apricot", "pear", "dragon fruit", "passion fruit", "avocado",
  "coconut", "jackfruit", "melon", "muskmelon", "cantaloupe",
  "litchi", "lychee", "custard apple", "sapota", "chikoo",
  "fig", "date", "raisin", "blackberry", "raspberry",
  "mosambi", "sweet lime", "grapefruit"]

/-- Descriptor words removed before the token fallback, verbatim from
the source. -/
def descriptors : List String :=
  ["fresh", "organic", "premium", "frozen", "combo", "pack", "big", "small", "medium", "large"]

/-- The word-level fallback test of `extract_base_item_name`:
the lower-cased word, stripped of `'(),'`, is not a descriptor and is
longer than 3 characters. -/
def fallbackWordOk (w : String) : Bool :=
  !(decide (stripParens (pyLower w) ∈ descriptors)) &&
    decide (3 < (stripParens (pyLower w)).length)

/-- `extract_base_item_name` from the source: empty input maps to the
sentinel; otherwise the first dictionary term contained in the
lower-cased name wins (title-cased); otherwise the first word that
survives descriptor/length filtering wins (stripped of `'(),'`,
title-cased); otherwise the sentinel `"Ungrouped"`. -/
def extract_base_item_name (item_name : String) : String :=
  if item_name = "" then "Ungrouped"
  else
    match base_items.find? (fun b => containsSub (pyLower item_name) b) with
    | some b => pyTitle b
    | none =>
      match (pySplit item_name).find? fallbackWordOk with
      | some w => pyTitle (stripParens w)
      | none => "Ungrouped"

/-! ## Facts needed for normalizer idempotence -/

theorem base_items_roundtrip :
    base_items.all (fun b => pyLower (pyTitle b) == b && !(b == "")) = true := by decide

theorem find?_of_imp {α : Type} {p q : α → Bool} {l : List α} {b : α}
    (h : l.find? p = some b) (hq : q b = true)
    (himp : ∀ x, q x = true → p x = true) : l.find? q = some b := by
  induction l with
  | nil => simp at h
  | cons a t ih =>
    by_cases hpa : p a = true
    · rw [List.find?_cons_of_pos _ hpa] at h
      injection h with h2
      subst h2
      rw [List.find?_cons_of_pos _ hq]
    · rw [List.find?_cons_of_neg _ hpa] at h
      have hqa : ¬ q a = true := fun hc => hpa (himp a hc)
      rw [List.find?_cons_of_neg _ hqa]
      exact ih h

theorem pyLower_length (s : String) : (pyLower s).length = s.length := by
  show (s.data.map lowerChar).length = s.data.length
  simp

theorem pyTitle_length (s : String) : (pyTitle s).length = s.length := by
  show (titleMap false s.data).length = s.data.length
  exact titleMap_length _ _

theorem stripParens_length_lower (w : String) :
    (stripParens (pyLower w)).length = (stripParens w).length := by
  have hmap : ∀ l : List Char, (l.map lowerChar).dropWhile inParen
      = (l.dropWhile inParen).map lowerChar := by
    intro l
    induction l with
    | nil => rfl
    | cons c cs ih =>
      simp only [List.map_cons, List.dropWhile_cons, inParen_lowerChar]
      split
      · exact ih
      · rfl
  simp only [stripParens, pyLower, String.length, stripEnds]
  rw [hmap, ← List.map_reverse, hmap]
  simp

/-- Stripping commutes with lower-casing (the strip set `'(),'` is
case-invariant). -/
theorem stripParens_pyLower (w : String) :
    stripParens (pyLower w) = pyLower (stripParens w) := by
  have hmap : ∀ l : List Char, (l.map lowerChar).dropWhile inParen
      = (l.dropWhile inParen).map lowerChar := by
    intro l
    induction l with
    | nil => rfl
    | cons c cs ih =>
      simp only [List.map_cons, List.dropWhile_cons, inParen_lowerChar]
      split
      · exact ih
      · rfl
  simp only [stripParens, pyLower, stripEnds]
  rw [hmap, ← List.map_reverse, hmap, ← List.map_reverse]

/-- Lower-casing after title-casing is lower-casing. -/
theorem pyLower_pyTitle_stripParens (w : String) :
    pyLower (pyTitle (stripParens w)) = stripParens (pyLower w) := by
  rw [pyLower_pyTitle, stripParens_pyLower]

theorem string_eta (s : String) : (⟨s.data⟩ : String) = s := by
  cases s
  rfl

theorem string_eq_empty_of_length_zero {s : String} (h : s.length = 0) : s = "" := by
  cases s with
  | mk data =>
    have hd : data.length = 0 := h
    have : data = [] := List.length_eq_zero.mp hd
    subst this
    rfl

theorem string_ne_empty_of_length_pos {s : String} (h : 0 < s.length) : s ≠ "" := by
  intro he
  subst he
  simp at h

theorem containsSub_lower {a b : String} (h : containsSub a b = true) :
    containsSub (pyLower a) (pyLower b) = true := by
  rw [containsSub, subIn_iff] at h ⊢
  obtain ⟨s, t, hst⟩ := h
  refine ⟨s.map lowerChar, t.map lowerChar, ?_⟩
  show s.map lowerChar ++ b.data.map lowerChar ++ t.map lowerChar = a.data.map lowerChar
  rw [← List.map_append, ← List.map_append, hst]

theorem containsSub_stripParens (x : String) : containsSub x (stripParens x) = true := by
  rw [containsSub, subIn_iff]
  obtain ⟨s, t, hst⟩ := stripEnds_sub inParen x.data
  exact ⟨s, t, hst⟩

theorem mem_pySplit_sub {w s : String} (h : w ∈ pySplit s) : containsSub s w = true := by
  rw [pySplit] at h
  obtain ⟨l, hl, hw⟩ := List.mem_map.mp h
  obtain ⟨s1, t1, hst⟩ := wordsAux_sub s.data [] hl
  rw [containsSub, subIn_iff]
  refine ⟨s1, t1, ?_⟩
  rw [← hw]
  simpa using hst

theorem mem_pySplit_nonws {w s : String} (h : w ∈ pySplit s) :
    ∀ c ∈ w.data, isWsChar c = false := by
  rw [pySplit] at h
  obtain ⟨l, hl, hw⟩ := List.mem_map.mp h
  intro c hc
  rw [← hw] at hc
  exact wordsAux_nonws s.data [] (by simp) hl c hc

theorem stripEnds_mem_subset {p : Char → Bool} {l : List Char} {c : Char}
    (h : c ∈ stripEnds p l) : c ∈ l := by
  obtain ⟨s, t, hst⟩ := stripEnds_sub p l
  rw [← hst]
  simp only [List.mem_append]
  exact Or.inl (Or.inr h)

theorem stripParens_stripParens (x : String) :
    stripParens (stripParens x) = stripParens x := by
  show (⟨stripEnds inParen (stripEnds inParen x.data)⟩ : String) = ⟨stripEnds inParen x.data⟩
  rw [stripEnds_stripEnds]

theorem extract_ungrouped_fixed : extract_base_item_name "Ungrouped" = "Ungrouped" := by decide

/-- In the dictionary branch, the found term is a fixed point of the
scan: the first term contained in the title-cased term is that term
itself, because any earlier contained term would already have been
found in the original name. -/
theorem dict_branch_fixed {s b : String}
    (hfind : base_items.find? (fun x => containsSub (pyLower s) x) = some b) :
    extract_base_item_name (pyTitle b) = pyTitle b := by
  have hbmem : b ∈ base_items := List.mem_of_find?_eq_some hfind
  have hround : pyLower (pyTitle b) = b ∧ b ≠ "" := by
    have hall := List.all_eq_true.mp base_items_roundtrip b hbmem
    simp only [Bool.and_eq_true, beq_iff_eq, Bool.not_eq_true', beq_eq_false_iff_ne] at hall
    exact hall
  have hYne : pyTitle b ≠ "" := by
    intro he
    apply hround.2
    have hlen := congrArg String.length he
    rw [pyTitle_length] at hlen
    exact string_eq_empty_of_length_zero (by simpa using hlen)
  rw [extract_base_item_name, if_neg hYne]
  have hfind2 : base_items.find? (fun x => containsSub (pyLower (pyTitle b)) x) = some b := by
    simp only [hround.1]
    apply find?_of_imp hfind (containsSub_self b)
    intro x hx
    exact containsSub_trans hx (List.find?_some hfind)
  rw [hfind2]

/-- In the word-fallback branch, the returned word is a fixed point of
the whole normalizer. -/
theorem fallback_branch_fixed {s w : String}
    (hnone : base_items.find? (fun x => containsSub (pyLower s) x) = none)
    (hw : (pySplit s).find? fallbackWordOk = some w) :
    extract_base_item_name (pyTitle (stripParens w)) = pyTitle (stripParens w) := by
  set y := pyTitle (stripParens w) with hydef
  have hwok : fallbackWordOk w = true := List.find?_some hw
  have hwmem : w ∈ pySplit s := List.mem_of_find?_eq_some hw
  have hparts : stripParens (pyLower w) ∉ descriptors ∧
      3 < (stripParens (pyLower w)).length := by
    rw [fallbackWordOk, Bool.and_eq_true] at hwok
    refine ⟨?_, ?_⟩
    · have h1 := hwok.1
      simpa using h1
    · have h2 := hwok.2
      simpa using h2
  have hYlow : pyLower y = stripParens (pyLower w) := pyLower_pyTitle_stripParens w
  have hYlen : y.length = (stripParens (pyLower w)).length := by
    have h1 := pyLower_length y
    rw [hYlow] at h1
    exact h1.symm
  have hYpos : 0 < y.length := by
    rw [hYlen]
    omega
  have hYne : y ≠ "" := string_ne_empty_of_length_pos hYpos
  rw [extract_base_item_name, if_neg hYne]
  have hdict : base_items.find? (fun x => containsSub (pyLower y) x) = none := by
    rw [List.find?_eq_none]
    intro b hb hcon
    apply List.find?_eq_none.mp hnone b hb
    have c1 : containsSub (pyLower s) (pyLower w) = true :=
      containsSub_lower (mem_pySplit_sub hwmem)
    have c2 : containsSub (pyLower w) (stripParens (pyLower w)) = true :=
      containsSub_stripParens _
    have c3 : containsSub (stripParens (pyLower w)) b = true := by
      rw [← hYlow]
      exact hcon
    exact containsSub_trans c3 (containsSub_trans c2 c1)
  rw [hdict]
  have hynonws : ∀ c ∈ y.data, isWsChar c = false := by
    intro c hc
    have hc' : c ∈ titleMap false (stripParens w).data := hc
    obtain ⟨c0, hc0mem, hor⟩ := titleMap_mem false _ hc'
    have h0 : isWsChar c0 = false :=
      mem_pySplit_nonws hwmem c0 (stripEnds_mem_subset hc0mem)
    rcases hor with rfl | rfl | rfl
    · exact h0
    · rw [isWsChar_lowerChar]
      exact h0
    · rw [isWsChar_upperChar]
      exact h0
  have hydata_ne : y.data ≠ [] := by
    intro h
    have h0 : (0:Nat) < y.data.length := hYpos
    rw [h] at h0
    simp at h0
  have hsplity : pySplit y = [y] := by
    rw [pySplit, wordsAux_single y.data hynonws []]
    have hne : y.data.isEmpty = false := by
      cases hyd : y.data with
      | nil => exact absurd hyd hydata_ne
      | cons c cs => rfl
    simp only [List.reverse_nil, List.nil_append, hne, Bool.false_eq_true, if_false,
      List.map_cons, List.map_nil]
  rw [hsplity]
  have hfb : fallbackWordOk y = true := by
    rw [fallbackWordOk]
    have hYY : stripParens (pyLower y) = stripParens (pyLower w) := by
      rw [hYlow, stripParens_stripParens]
    rw [hYY, Bool.and_eq_true]
    constructor
    · simp [hparts.1]
    · simp [hparts.2]
  rw [List.find?_cons_of_pos _ hfb]
  have hstripy : stripParens y = y := by
    have hhead : ∀ c, y.data.head? = some c → inParen c = false := by
      intro c hc
      cases hu : (stripParens w).data with
      | nil =>
        have : y.data = [] := by
          show titleMap false (stripParens w).data = []
          rw [hu]
          rfl
        exact absurd this hydata_ne
      | cons c0 rest =>
        have hexp : y.data =
            (if isAsciiLetter c0 then (if false then lowerChar c0 else upperChar c0) else c0)
              :: titleMap (isAsciiLetter c0) rest := by
          show titleMap false (stripParens w).data = _
          rw [hu]
          rfl
        rw [hexp] at hc
        simp only [List.head?_cons, Option.some.injEq] at hc
        have h0 : inParen c0 = false := by
          apply stripEnds_head (p := inParen) (l := w.data)
          rw [show stripEnds inParen w.data = c0 :: rest from hu]
          rfl
        rw [← hc]
        by_cases hl : isAsciiLetter c0 = true <;>
          simp [hl, inParen_upperChar, h0]
    have hlast : ∀ c, y.data.getLast? = some c → inParen c = false := by
      intro c hc
      have hmapeq : y.data.map inParen = (stripParens w).data.map inParen :=
        map_invariant_titleMap (fun c => ⟨inParen_lowerChar c, inParen_upperChar c⟩) false _
      have h1 : (y.data.map inParen).getLast? = some (inParen c) := by
        rw [List.getLast?_map, hc]
        rfl
      rw [hmapeq, List.getLast?_map] at h1
      cases hgl : (stripParens w).data.getLast? with
      | none =>
        rw [hgl] at h1
        simp at h1
      | some c1 =>
        rw [hgl] at h1
        have h2 : inParen c1 = inParen c := by simpa using h1
        have h3 : inParen c1 = false :=
          stripEnds_last (show (stripEnds inParen w.data).getLast? = some c1 from hgl)
        rw [← h2]
        exact h3
    show (⟨stripEnds inParen y.data⟩ : String) = y
    rw [stripEnds_eq_self hhead hlast, string_eta]
  show pyTitle (stripParens y) = y
  rw [hstripy, hydef, pyTitle_pyTitle]

/-- Claim C5: base-item normalization is idempotent: applying
`extract_base_item_name` to any key it returns yields that key again,
including the sentinel `"Ungrouped"`. -/
theorem c5_base_item_normalization_idempotent (s : String) :
    extract_base_item_name (extract_base_item_name s) = extract_base_item_name s := by
  by_cases hs : s = ""
  · subst hs
    have h0 : extract_base_item_name "" = "Ungrouped" := by decide
    rw [h0]
    exact extract_ungrouped_fixed
  · rcases hfind : base_items.find? (fun b => containsSub (pyLower s) b) with _ | b
    · rcases hw : (pySplit s).find? fallbackWordOk with _ | w
      · have hval : extract_base_item_name s = "Ungrouped" := by
          rw [extract_base_item_name, if_neg hs, hfind, hw]
        rw [hval]
        exact extract_ungrouped_fixed
      · have hval : extract_base_item_name s = pyTitle (stripParens w) := by
          rw [extract_base_item_name, if_neg hs, hfind, hw]
        rw [hval]
        exact fallback_branch_fixed hfind hw
    · have hval : extract_base_item_name s = pyTitle b := by
        rw [extract_base_item_name, if_neg hs, hfind]
      rw [hval]
      exact dict_branch_fixed hfind

/-! ## Records and the Record Deduplicator -/

/-- One extracted product record: the `name`/`price`/`unit` fields of
the item dictionaries built by `_extract_product_info` (the `price`
field is the composed price string). -/
structure SrcRec where
  name : String
  price : String
  unit : String
deriving DecidableEq

/-- The key used by the in-scrape dedup of `_scrape_all_products`:
the Python f-string `f"{item['name']}|{item['price']}"`. -/
def joinedKey (r : SrcRec) : String := r.name ++ "|" ++ r.price

/-- The `seen_items` dedup loop of `_scrape_all_products`: walk the
extracted items in order, keeping an item iff its joined key has not
been seen. -/
def hpSeenDedup (seen : List String) : List SrcRec → List SrcRec
  | [] => []
  | r :: rest =>
    if seen.contains (joinedKey r) then hpSeenDedup seen rest
    else r :: hpSeenDedup (joinedKey r :: seen) rest

/-- `DataFrame.drop_duplicates(subset=['Name', 'Price'], keep='first')`
from `_create_dataframe`: keep the first row for each exact
(name, price) pair. -/
def dropDupNamePrice (seen : List (String × String)) : List SrcRec → List SrcRec
  | [] => []
  | r :: rest =>
    if seen.contains (r.name, r.price) then dropDupNamePrice seen rest
    else r :: dropDupNamePrice ((r.name, r.price) :: seen) rest

/-- The full Hyperpure dedup pipeline: the in-scrape `seen_items` dedup
followed by the dataframe-level `drop_duplicates`. -/
def hyperpure_dedup (l : List SrcRec) : List SrcRec :=
  dropDupNamePrice [] (hpSeenDedup [] l)

/-- Modelled from the spec: stable order-preserving dedup with key the
exact `(name, composedPriceString)` pair — a record is kept iff no
earlier record of the sequence has the same pair; the first occurrence
of each pair is kept and every later occurrence of that pair is
dropped.  `prev` holds the records already walked. -/
def spec_pair_dedup_aux (prev : List SrcRec) : List SrcRec → List SrcRec
  | [] => []
  | r :: rest =>
    if prev.any (fun q => q.name == r.name && q.price == r.price) then
      spec_pair_dedup_aux (prev ++ [r]) rest
    else r :: spec_pair_dedup_aux (prev ++ [r]) rest

/-- Modelled from the spec: pair-keyed stable first-occurrence dedup. -/
def spec_pair_dedup (l : List SrcRec) : List SrcRec := spec_pair_dedup_aux [] l

/-- Stable first-occurrence dedup with the joined string
`name ++ "|" ++ price` as key — the key the code actually uses. -/
def spec_joined_dedup_aux (prev : List SrcRec) : List SrcRec → List SrcRec
  | [] => []
  | r :: rest =>
    if prev.any (fun q => joinedKey q == joinedKey r) then
      spec_joined_dedup_aux (prev ++ [r]) rest
    else r :: spec_joined_dedup_aux (prev ++ [r]) rest

/-- Joined-string-keyed stable first-occurrence dedup. -/
def spec_joined_dedup (l : List SrcRec) : List SrcRec := spec_joined_dedup_aux [] l

theorem hpSeenDedup_eq_spec_aux (l : List SrcRec) :
    ∀ (seen : List String) (prev : List SrcRec),
      (∀ r : SrcRec, seen.contains (joinedKey r)
        = prev.any (fun q => joinedKey q == joinedKey r)) →
      hpSeenDedup seen l = spec_joined_dedup_aux prev l := by
  induction l with
  | nil => intro seen prev _; rfl
  | cons r rest ih =>
    intro seen prev hinv
    rw [hpSeenDedup, spec_joined_dedup_aux, ← hinv r]
    by_cases hc : seen.contains (joinedKey r) = true
    · rw [if_pos hc, if_pos hc]
      apply ih
      intro x
      rw [List.any_append, ← hinv x]
      by_cases hx : (joinedKey r == joinedKey x) = true
      · have hxr : joinedKey x = joinedKey r := (beq_iff_eq.mp hx).symm
        rw [hxr, hc]
        simp [List.any_cons]
      · have hx2 : (joinedKey r == joinedKey x) = false := by simpa using hx
        simp [List.any_cons, hx2]
    · have hc2 : seen.contains (joinedKey r) = false := by simpa using hc
      rw [hc2]
      simp only [Bool.false_eq_true, if_false]
      congr 1
      apply ih
      intro x
      rw [List.contains_cons, List.any_append, ← hinv x]
      have hbc : (joinedKey x == joinedKey r) = (joinedKey r == joinedKey x) := by
        apply bool_eq_of_iff
        simp only [beq_iff_eq]
        exact eq_comm
      rw [hbc]
      simp [List.any_cons, Bool.or_comm]

theorem hpSeenDedup_eq_spec (l : List SrcRec) :
    hpSeenDedup [] l = spec_joined_dedup l := by
  apply hpSeenDedup_eq_spec_aux
  intro r
  rfl

theorem spec_joined_dedup_aux_sublist (l : List SrcRec) :
    ∀ prev : List SrcRec, (spec_joined_dedup_aux prev l).Sublist l := by
  induction l with
  | nil => intro prev; simp [spec_joined_dedup_aux]
  | cons r rest ih =>
    intro prev
    rw [spec_joined_dedup_aux]
    split
    · exact (ih (prev ++ [r])).trans (List.sublist_cons_self r rest)
    · exact List.Sublist.cons₂ r (ih (prev ++ [r]))

theorem spec_joined_dedup_aux_fresh (l : List SrcRec) :
    ∀ prev : List SrcRec, ∀ x ∈ spec_joined_dedup_aux prev l,
      prev.any (fun q => joinedKey q == joinedKey x) = false := by
  induction l with
  | nil => intro prev x hx; simp [spec_joined_dedup_aux] at hx
  | cons r rest ih =>
    intro prev x hx
    rw [spec_joined_dedup_aux] at hx
    split at hx
    · have h2 := ih (prev ++ [r]) x hx
      rw [List.any_append] at h2
      exact (Bool.or_eq_false_iff.mp h2).1
    · rcases List.mem_cons.mp hx with rfl | hx2
      · next hany => simpa using hany
      · have h2 := ih (prev ++ [r]) x hx2
        rw [List.any_append] at h2
        exact (Bool.or_eq_false_iff.mp h2).1

theorem spec_joined_dedup_aux_pairwise (l : List SrcRec) :
    ∀ prev : List SrcRec,
      List.Pairwise (fun a b => joinedKey a ≠ joinedKey b)
        (spec_joined_dedup_aux prev l) := by
  induction l with
  | nil => intro prev; simp [spec_joined_dedup_aux]
  | cons r rest ih =>
    intro prev
    rw [spec_joined_dedup_aux]
    split
    · exact ih (prev ++ [r])
    · constructor
      · intro x hx
        have h2 := spec_joined_dedup_aux_fresh rest (prev ++ [r]) x hx
        rw [List.any_append] at h2
        have h3 := (Bool.or_eq_false_iff.mp h2).2
        simp only [List.any_cons, List.any_nil, Bool.or_false, beq_eq_false_iff_ne,
          ne_eq] at h3
        exact h3
      · exact ih (prev ++ [r])

theorem spec_joined_dedup_sublist (l : List SrcRec) :
    (spec_joined_dedup l).Sublist l :=
  spec_joined_dedup_aux_sublist l []

theorem spec_joined_dedup_pairwise (l : List SrcRec) :
    List.Pairwise (fun a b => joinedKey a ≠ joinedKey b) (spec_joined_dedup l) :=
  spec_joined_dedup_aux_pairwise l []

theorem dropDupNamePrice_id (l : List SrcRec) :
    ∀ seen : List (String × String),
      List.Pairwise (fun a b => ¬(a.name = b.name ∧ a.price = b.price)) l →
      (∀ r ∈ l, ¬ seen.contains (r.name, r.price) = true) →
      dropDupNamePrice seen l = l := by
  induction l with
  | nil => intro seen _ _; rfl
  | cons r rest ih =>
    intro seen hpw hseen
    rw [dropDupNamePrice,
      if_neg (hseen r (List.mem_cons_self r rest))]
    congr 1
    apply ih _ hpw.of_cons
    intro q hq
    rw [List.contains_cons]
    simp only [Bool.or_eq_true, not_or]
    constructor
    · have hne := (List.pairwise_cons.mp hpw).1 q hq
      simp only [beq_iff_eq, Prod.mk.injEq]
      intro hc
      rcases hc with ⟨h1, h2⟩
      exact hne ⟨h1.symm ▸ rfl, h2.symm ▸ rfl⟩
    · exact hseen q (List.mem_cons_of_mem r hq)

theorem joined_ne_of_pair_parts {a b : SrcRec}
    (h : joinedKey a ≠ joinedKey b) : ¬(a.name = b.name ∧ a.price = b.price) := by
  intro hc
  apply h
  rw [joinedKey, joinedKey, hc.1, hc.2]

/-- The two concrete records whose distinct (name, price) pairs
produce the same joined key `"a|b|c"`. -/
def c4CollidingInput : List SrcRec :=
  [⟨"a|b", "c", "kg"⟩, ⟨"a", "b|c", "kg"⟩]

/-- Claim C4, counterexample: deduplication is NOT keyed by the exact
(name, composedPriceString) pair.  On two records with distinct pairs
but colliding joined strings, the pipeline drops the second record
although the pair-keyed dedup of the claim would keep both. -/
theorem c4_dedup_counterexample :
    hyperpure_dedup c4CollidingInput ≠ spec_pair_dedup c4CollidingInput ∧
    hyperpure_dedup c4CollidingInput = [⟨"a|b", "c", "kg"⟩] ∧
    spec_pair_dedup c4CollidingInput = c4CollidingInput := by
  refine ⟨?_, ?_, ?_⟩ <;> decide

/-- Claim C4, amended: deduplication is stable and order-preserving,
but its key is the joined string `name ++ "|" ++ price`, not the exact
(name, price) pair: the first occurrence of each joined key is kept
and all later occurrences dropped, so records with distinct pairs but
colliding joined strings are conflated.  In the output no two records
share a joined key, hence no two share the same (name, price) pair. -/
theorem c4_dedup_amended (l : List SrcRec) :
    hyperpure_dedup l = spec_joined_dedup l ∧
    (hyperpure_dedup l).Sublist l ∧
    List.Pairwise (fun a b => joinedKey a ≠ joinedKey b) (hyperpure_dedup l) ∧
    List.Pairwise (fun a b => ¬(a.name = b.name ∧ a.price = b.price)) (hyperpure_dedup l) := by
  have hpair : List.Pairwise (fun a b => ¬(a.name = b.name ∧ a.price = b.price))
      (spec_joined_dedup l) :=
    (spec_joined_dedup_pairwise l).imp
      (fun h => joined_ne_of_pair_parts h)
  have heq : hyperpure_dedup l = spec_joined_dedup l := by
    rw [hyperpure_dedup, hpSeenDedup_eq_spec]
    apply dropDupNamePrice_id _ _ hpair
    intro r _ hc
    simp [List.contains] at hc
  refine ⟨heq, ?_, ?_, ?_⟩
  · rw [heq]
    exact spec_joined_dedup_sublist l
  · rw [heq]
    exact spec_joined_dedup_pairwise l
  · rw [heq]
    exact hpair

/-! ## A stable structural sort (Python `sorted`) -/

/-- Insert into a sorted list, before the first element that may
follow it (stable for non-strict `le`). -/
def insertBy {α : Type} (le : α → α → Bool) (a : α) : List α → List α
  | [] => [a]
  | b :: bs => if le a b then a :: b :: bs else b :: insertBy le a bs

/-- Stable insertion sort; extensionally Python `sorted(, key)` for a
total non-strict comparison. -/
def sortBy {α : Type} (le : α → α → Bool) : List α → List α
  | [] => []
  | a :: as => insertBy le a (sortBy le as)

theorem insertBy_perm {α : Type} (le : α → α → Bool) (a : α) (l : List α) :
    (insertBy le a l).Perm (a :: l) := by
  induction l with
  | nil => simp [insertBy]
  | cons b bs ih =>
    rw [insertBy]
    split
    · exact List.Perm.refl _
    · exact (List.Perm.cons b ih).trans (List.Perm.swap a b bs)

theorem sortBy_perm {α : Type} (le : α → α → Bool) (l : List α) :
    (sortBy le l).Perm l := by
  induction l with
  | nil => simp [sortBy]
  | cons a as ih =>
    rw [sortBy]
    exact (insertBy_perm le a (sortBy le as)).trans (List.Perm.cons a ih)

theorem insertBy_pairwise {α : Type} {le : α → α → Bool}
    (htot : ∀ a b, le a b = true ∨ le b a = true)
    (htrans : ∀ a b c, le a b = true → le b c = true → le a c = true)
    (a : α) {l : List α}
    (hl : List.Pairwise (fun x y => le x y = true) l) :
    List.Pairwise (fun x y => le x y = true) (insertBy le a l) := by
  induction l with
  | nil => simp [insertBy]
  | cons b bs ih =>
    rw [insertBy]
    split
    · next hab =>
      constructor
      · intro x hx
        rcases List.mem_cons.mp hx with rfl | hx2
        · exact hab
        · exact htrans a b x hab ((List.pairwise_cons.mp hl).1 x hx2)
      · exact hl
    · next hab =>
      have hba : le b a = true := by
        rcases htot a b with h | h
        · exact absurd h hab
        · exact h
      constructor
      · intro x hx
        have hmem : x ∈ a :: bs := (insertBy_perm le a bs).subset hx
        rcases List.mem_cons.mp hmem with rfl | hx2
        · exact hba
        · exact (List.pairwise_cons.mp hl).1 x hx2
      · exact ih (List.pairwise_cons.mp hl).2

theorem sortBy_pairwise {α : Type} {le : α → α → Bool}
    (htot : ∀ a b, le a b = true ∨ le b a = true)
    (htrans : ∀ a b c, le a b = true → le b c = true → le a c = true)
    (l : List α) :
    List.Pairwise (fun x y => le x y = true) (sortBy le l) := by
  induction l with
  | nil => simp [sortBy]
  | cons a as ih => exact insertBy_pairwise htot htrans a ih

/-! ## Comparison Grouper (`create_grouped_comparison`) -/

/-- The base-item key of a record (`df['Name'].apply(extract_base_item_name)`). -/
def baseOf (r : SrcRec) : String := extract_base_item_name r.name

/-- One output row of `create_grouped_comparison`: the dictionary the
code appends to `table_rows`. -/
structure CompRow where
  group : String
  hpName : String
  hpPrice : String
  hpUnit : String
  wmName : String
  wmPrice : String
  wmUnit : String
  isGroupHeader : Bool
deriving DecidableEq

/-- The group-header row for one base item. -/
def groupHeaderRow (base : String) : CompRow :=
  { group := "📦 " ++ base, hpName := "", hpPrice := "", hpUnit := "",
    wmName := "", wmPrice := "", wmUnit := "", isGroupHeader := true }

/-- The i-th item row of one group: the record fields when `i` is in
range on a side, empty strings otherwise. -/
def groupItemRow (hpItems wmItems : List SrcRec) (i : Nat) : CompRow :=
  { group := ""
    hpName := ((hpItems[i]?).map SrcRec.name).getD ""
    hpPrice := ((hpItems[i]?).map SrcRec.price).getD ""
    hpUnit := ((hpItems[i]?).map SrcRec.unit).getD ""
    wmName := ((wmItems[i]?).map SrcRec.name).getD ""
    wmPrice := ((wmItems[i]?).map SrcRec.price).getD ""
    wmUnit := ((wmItems[i]?).map SrcRec.unit).getD ""
    isGroupHeader := false }

/-- The rows emitted for one base item: one header row, then
`max(len(hp_items), len(wm_items), 1)` item rows. -/
def groupRows (hp wm : List SrcRec) (base : String) : List CompRow :=
  let hpItems := hp.filter (fun r => baseOf r == base)
  let wmItems := wm.filter (fun r => baseOf r == base)
  let maxRows := max (max hpItems.length wmItems.length) 1
  groupHeaderRow base :: (List.range maxRows).map (groupItemRow hpItems wmItems)

/-- The ordered key list of the grouper: all distinct base items from
both sources, `"Ungrouped"` excluded and sorted ascending, then
`"Ungrouped"` appended iff present. -/
def allBasesSorted (hp wm : List SrcRec) : List String :=
  let all := (hp.map baseOf ++ wm.map baseOf).dedup
  let grouped := sortBy (fun a b => decide (a ≤ b)) (all.filter (fun b => !(b == "Ungrouped")))
  let ungrouped := if "Ungrouped" ∈ all then ["Ungrouped"] else []
  grouped ++ ungrouped

/-- `create_grouped_comparison` from the source: for each key in
order, one header row followed by the paired item rows. -/
def create_grouped_comparison (hp wm : List SrcRec) : List CompRow :=
  (allBasesSorted hp wm).flatMap (groupRows hp wm)

/-- The Hyperpure-side record stored in an item row, when the row's
Hyperpure fields are filled. -/
def hpSideOf (r : CompRow) : Option SrcRec :=
  if r.isGroupHeader then none
  else if r.hpName = "" then none
  else some ⟨r.hpName, r.hpPrice, r.hpUnit⟩

/-- The WholesaleMandi-side record stored in an item row. -/
def wmSideOf (r : CompRow) : Option SrcRec :=
  if r.isGroupHeader then none
  else if r.wmName = "" then none
  else some ⟨r.wmName, r.wmPrice, r.wmUnit⟩

/-- The label of a group-header row. -/
def headerLabelOf (r : CompRow) : Option String :=
  if r.isGroupHeader then some r.group else none

/-- Claim C9: with both input sequences empty the grouper emits no
rows at all — in particular no lone "Ungrouped" header row. -/
theorem c9_empty_inputs_empty_output : create_grouped_comparison [] [] = [] := by
  decide

theorem filterMap_range_getElem {α : Type} (l : List α) (m : Nat) (h : l.length ≤ m) :
    (List.range m).filterMap (fun i => l[i]?) = l := by
  have h1 : ∀ n, (List.range n).filterMap (fun i => l[i]?) = l.take n := by
    intro n
    induction n with
    | zero => simp
    | succ n ih =>
      rw [List.range_succ, List.filterMap_append, ih, List.take_succ]
      cases hn : l[n]? with
      | none => rw [List.filterMap_cons_none hn, List.filterMap_nil]; rfl
      | some v => rw [List.filterMap_cons_some hn, List.filterMap_nil]; rfl
  rw [h1 m, List.take_of_length_le h]

theorem hpSideOf_groupItemRow (hpItems wmItems : List SrcRec)
    (hnames : ∀ r ∈ hpItems, r.name ≠ "") (i : Nat) :
    hpSideOf (groupItemRow hpItems wmItems i) = hpItems[i]? := by
  cases hr : hpItems[i]? with
  | none => simp [hpSideOf, groupItemRow, hr]
  | some r =>
    have hmem : r ∈ hpItems := by
      obtain ⟨hlt, he⟩ := List.getElem?_eq_some_iff.mp hr
      rw [← he]
      exact List.getElem_mem hlt
    have hne : r.name ≠ "" := hnames r hmem
    simp [hpSideOf, groupItemRow, hr, hne]

theorem wmSideOf_groupItemRow (hpItems wmItems : List SrcRec)
    (hnames : ∀ r ∈ wmItems, r.name ≠ "") (i : Nat) :
    wmSideOf (groupItemRow hpItems wmItems i) = wmItems[i]? := by
  cases hr : wmItems[i]? with
  | none => simp [wmSideOf, groupItemRow, hr]
  | some r =>
    have hmem : r ∈ wmItems := by
      obtain ⟨hlt, he⟩ := List.getElem?_eq_some_iff.mp hr
      rw [← he]
      exact List.getElem_mem hlt
    have hne : r.name ≠ "" := hnames r hmem
    simp [wmSideOf, groupItemRow, hr, hne]

theorem filterMap_hpSide_groupRows (hp wm : List SrcRec) (base : String)
    (hnames : ∀ r ∈ hp, r.name ≠ "") :
    (groupRows hp wm base).filterMap hpSideOf
      = hp.filter (fun r => baseOf r == base) := by
  rw [groupRows]
  rw [List.filterMap_cons_none (by rfl)]
  rw [List.filterMap_map]
  have hitems : ∀ r ∈ hp.filter (fun r => baseOf r == base), r.name ≠ "" :=
    fun r hr => hnames r (List.mem_of_mem_filter hr)
  have hfun : (hpSideOf ∘ groupItemRow (hp.filter (fun r => baseOf r == base))
        (wm.filter (fun r => baseOf r == base)))
      = fun i => (hp.filter (fun r => baseOf r == base))[i]? := by
    funext i
    exact hpSideOf_groupItemRow _ _ hitems i
  rw [hfun]
  apply filterMap_range_getElem
  exact le_trans (le_max_left _ _) (le_max_left _ _)

theorem filterMap_wmSide_groupRows (hp wm : List SrcRec) (base : String)
    (hnames : ∀ r ∈ wm, r.name ≠ "") :
    (groupRows hp wm base).filterMap wmSideOf
      = wm.filter (fun r => baseOf r == base) := by
  rw [groupRows]
  rw [List.filterMap_cons_none (by rfl)]
  rw [List.filterMap_map]
  have hitems : ∀ r ∈ wm.filter (fun r => baseOf r == base), r.name ≠ "" :=
    fun r hr => hnames r (List.mem_of_mem_filter hr)
  have hfun : (wmSideOf ∘ groupItemRow (hp.filter (fun r => baseOf r == base))
        (wm.filter (fun r => baseOf r == base)))
      = fun i => (wm.filter (fun r => baseOf r == base))[i]? := by
    funext i
    exact wmSideOf_groupItemRow _ _ hitems i
  rw [hfun]
  apply filterMap_range_getElem
  exact le_trans (le_max_right _ _) (le_max_left _ _)

/-- A nodup key list covering all keys of `l` partitions `l`:
concatenating the per-key filters is a permutation of `l`. -/
theorem flatMap_filter_perm {α : Type} (key : α → String) :
    ∀ (keys : List String) (l : List α), keys.Nodup →
      (∀ x ∈ l, key x ∈ keys) →
      (keys.flatMap (fun k => l.filter (fun x => key x == k))).Perm l := by
  intro keys
  induction keys with
  | nil =>
    intro l _ hcov
    cases l with
    | nil => simp
    | cons x xs => exact absurd (hcov x (List.mem_cons_self x xs)) (by simp)
  | cons k ks ih =>
    intro l hnd hcov
    rw [List.flatMap_cons]
    have hkni : k ∉ ks := by
      intro hk
      exact (List.pairwise_cons.mp hnd).1 k hk rfl
    have hstep : ∀ k' ∈ ks, l.filter (fun x => key x == k')
        = (l.filter (fun x => !(key x == k))).filter (fun x => key x == k') := by
      intro k' hk'
      have hne : k' ≠ k := fun he => hkni (he ▸ hk')
      rw [List.filter_filter]
      apply List.filter_congr
      intro x _
      by_cases hx : key x = k'
      · simp [hx, hne]
      · simp [hx]
    have hmapeq : ks.flatMap (fun k' => l.filter (fun x => key x == k'))
        = ks.flatMap (fun k' => (l.filter (fun x => !(key x == k))).filter
            (fun x => key x == k')) := by
      rw [List.flatMap_def, List.flatMap_def]
      congr 1
      exact List.map_congr_left hstep
    have hcov2 : ∀ x ∈ l.filter (fun x => !(key x == k)), key x ∈ ks := by
      intro x hx
      have h1 := List.mem_filter.mp hx
      have h2 := hcov x h1.1
      rcases List.mem_cons.mp h2 with he | hin
      · exfalso
        have := h1.2
        rw [he] at this
        simp at this
      · exact hin
    have hperm2 := ih (l.filter (fun x => !(key x == k))) hnd.of_cons hcov2
    rw [hmapeq]
    exact ((List.Perm.append_left _ hperm2).trans (List.filter_append_perm _ l))

theorem allBasesSorted_nodup (hp wm : List SrcRec) : (allBasesSorted hp wm).Nodup := by
  rw [allBasesSorted]
  apply List.Nodup.append
  · exact ((sortBy_perm _ _).nodup_iff).mpr
      ((List.nodup_dedup _).filter _)
  · split <;> simp
  · intro b hb hb2
    have hb3 : b ∈ ((hp.map baseOf ++ wm.map baseOf).dedup.filter
        (fun b => !(b == "Ungrouped"))) := (sortBy_perm _ _).subset hb
    have hne := (List.mem_filter.mp hb3).2
    split at hb2
    · simp only [List.mem_singleton] at hb2
      rw [hb2] at hne
      simp at hne
    · simp at hb2

theorem mem_allBasesSorted {hp wm : List SrcRec} {b : String}
    (hb : b ∈ (hp.map baseOf ++ wm.map baseOf).dedup) :
    b ∈ allBasesSorted hp wm := by
  rw [allBasesSorted, List.mem_append]
  by_cases hu : b = "Ungrouped"
  · right
    subst hu
    rw [if_pos hb]
    simp
  · left
    rw [(sortBy_perm _ _).mem_iff, List.mem_filter]
    exact ⟨hb, by simpa using hu⟩

/-- Claim C1: every record from both sources appears in exactly one
item row of the grouped output — the Hyperpure-side fields of the item
rows, read back as records, are a permutation of the Hyperpure input,
and likewise for the WholesaleMandi side.  (Names are required
non-empty, as all extracted records have non-empty names; an empty
name is indistinguishable from the blank padding of an item row.) -/
theorem c1_grouping_completeness (hp wm : List SrcRec)
    (hA : ∀ r ∈ hp, r.name ≠ "") (hB : ∀ r ∈ wm, r.name ≠ "") :
    ((create_grouped_comparison hp wm).filterMap hpSideOf).Perm hp ∧
    ((create_grouped_comparison hp wm).filterMap wmSideOf).Perm wm := by
  have hnd := allBasesSorted_nodup hp wm
  constructor
  · rw [create_grouped_comparison, List.flatMap_def, List.filterMap_flatten,
      List.map_map]
    have hmap : (List.filterMap hpSideOf ∘ groupRows hp wm)
        = fun k => hp.filter (fun r => baseOf r == k) := by
      funext k
      exact filterMap_hpSide_groupRows hp wm k hA
    rw [hmap, ← List.flatMap_def]
    apply flatMap_filter_perm baseOf _ hp hnd
    intro x hx
    apply mem_allBasesSorted
    rw [List.mem_dedup, List.mem_append]
    exact Or.inl (List.mem_map.mpr ⟨x, hx, rfl⟩)
  · rw [create_grouped_comparison, List.flatMap_def, List.filterMap_flatten,
      List.map_map]
    have hmap : (List.filterMap wmSideOf ∘ groupRows hp wm)
        = fun k => wm.filter (fun r => baseOf r == k) := by
      funext k
      exact filterMap_wmSide_groupRows hp wm k hB
    rw [hmap, ← List.flatMap_def]
    apply flatMap_filter_perm baseOf _ wm hnd
    intro x hx
    apply mem_allBasesSorted
    rw [List.mem_dedup, List.mem_append]
    exact Or.inr (List.mem_map.mpr ⟨x, hx, rfl⟩)

theorem filterMap_const_none {α β : Type} (l : List α) :
    l.filterMap (fun _ => (none : Option β)) = [] := by
  induction l with
  | nil => rfl
  | cons a as ih => rw [List.filterMap_cons_none rfl, ih]

theorem flatten_singletons {α β : Type} (f : α → β) (l : List α) :
    (l.map (fun k => [f k])).flatten = l.map f := by
  induction l with
  | nil => rfl
  | cons a as ih => simp [ih]

theorem filterMap_headerLabel_groupRows (hp wm : List SrcRec) (base : String) :
    (groupRows hp wm base).filterMap headerLabelOf = ["📦 " ++ base] := by
  rw [groupRows, List.filterMap_cons_some (by rfl), List.filterMap_map]
  have hfun : (headerLabelOf ∘ groupItemRow (hp.filter (fun r => baseOf r == base))
        (wm.filter (fun r => baseOf r == base)))
      = fun _ => (none : Option String) := by
    funext i
    rfl
  rw [hfun, filterMap_const_none]
  rfl

theorem allBasesSorted_pairwise (hp wm : List SrcRec) :
    List.Pairwise (fun a b => b = "Ungrouped" ∨ a < b) (allBasesSorted hp wm) := by
  rw [allBasesSorted, List.pairwise_append]
  refine ⟨?_, ?_, ?_⟩
  · have htot : ∀ a b : String, (decide (a ≤ b)) = true ∨ (decide (b ≤ a)) = true := by
      intro a b
      rcases le_total a b with h | h
      · exact Or.inl (decide_eq_true h)
      · exact Or.inr (decide_eq_true h)
    have htrans : ∀ a b c : String, (decide (a ≤ b)) = true → (decide (b ≤ c)) = true →
        (decide (a ≤ c)) = true := by
      intro a b c h1 h2
      exact decide_eq_true (le_trans (of_decide_eq_true h1) (of_decide_eq_true h2))
    have hle := sortBy_pairwise htot htrans
      (((hp.map baseOf ++ wm.map baseOf).dedup).filter (fun b => !(b == "Ungrouped")))
    have hnd : List.Pairwise (fun a b : String => a ≠ b)
        (sortBy (fun a b => decide (a ≤ b))
          (((hp.map baseOf ++ wm.map baseOf).dedup).filter (fun b => !(b == "Ungrouped")))) := by
      have := ((sortBy_perm (fun a b : String => decide (a ≤ b)) _).nodup_iff).mpr
        ((List.nodup_dedup (hp.map baseOf ++ wm.map baseOf)).filter
          (fun b => !(b == "Ungrouped")))
      exact this
    refine (hle.and hnd).imp ?_
    rintro a b ⟨h1, h2⟩
    exact Or.inr (lt_of_le_of_ne (of_decide_eq_true h1) h2)
  · split <;> simp
  · intro a _ b hb
    left
    split at hb
    · simpa using hb
    · simp at hb

theorem allBasesSorted_ungrouped_last (hp wm : List SrcRec)
    (h : "Ungrouped" ∈ allBasesSorted hp wm) :
    (allBasesSorted hp wm).getLast? = some "Ungrouped" := by
  rw [allBasesSorted] at h ⊢
  by_cases hc : "Ungrouped" ∈ (hp.map baseOf ++ wm.map baseOf).dedup
  · rw [if_pos hc]
    exact List.getLast?_concat _
  · exfalso
    rcases List.mem_append.mp h with h1 | h2
    · have h3 := (List.mem_filter.mp ((sortBy_perm _ _).subset h1)).2
      simp at h3
    · rw [if_neg hc] at h2
      simp at h2

/-- Claim C2: the group-header rows of the output appear in ascending
lexicographic order of their base-item key, except `"Ungrouped"`,
which is always the last group when present: the header labels are
exactly the ordered key list (each prefixed with the marker), any two
successive keys are strictly ascending unless the later one is
`"Ungrouped"`, and `"Ungrouped"` is last when present. -/
theorem c2_group_ordering (hp wm : List SrcRec) :
    ((create_grouped_comparison hp wm).filterMap headerLabelOf
        = (allBasesSorted hp wm).map (fun k => "📦 " ++ k)) ∧
    List.Pairwise (fun a b => b = "Ungrouped" ∨ a < b) (allBasesSorted hp wm) ∧
    ("Ungrouped" ∈ allBasesSorted hp wm →
      (allBasesSorted hp wm).getLast? = some "Ungrouped") := by
  refine ⟨?_, allBasesSorted_pairwise hp wm, allBasesSorted_ungrouped_last hp wm⟩
  rw [create_grouped_comparison, List.flatMap_def, List.filterMap_flatten, List.map_map]
  have hmap : (List.filterMap headerLabelOf ∘ groupRows hp wm)
      = fun k => ["📦 " ++ k] := by
    funext k
    exact filterMap_headerLabel_groupRows hp wm k
  rw [hmap, flatten_singletons]

def c1ExHp : List SrcRec := [⟨"Carrot", "₹30", "1 kg"⟩, ⟨"Carrot Ooty", "₹40", "1 kg"⟩]

def c1ExWm : List SrcRec := [⟨"Tomato Local", "₹20", "1 kg"⟩]

theorem c1_grouping_completeness_witness :
    (∀ r ∈ c1ExHp, r.name ≠ "") ∧ (∀ r ∈ c1ExWm, r.name ≠ "") ∧
    ((create_grouped_comparison c1ExHp c1ExWm).filterMap hpSideOf).Perm c1ExHp ∧
    ((create_grouped_comparison c1ExHp c1ExWm).filterMap wmSideOf).Perm c1ExWm := by
  refine ⟨by decide, by decide, ?_, ?_⟩
  · exact (c1_grouping_completeness c1ExHp c1ExWm (by decide) (by decide)).1
  · exact (c1_grouping_completeness c1ExHp c1ExWm (by decide) (by decide)).2

def c2ExHp : List SrcRec := [⟨"Carrot", "₹30", "1 kg"⟩]

def c2ExWm : List SrcRec := [⟨"zz 12", "₹9", "1 kg"⟩]

theorem c2_group_ordering_witness :
    "Ungrouped" ∈ allBasesSorted c2ExHp c2ExWm ∧
    (allBasesSorted c2ExHp c2ExWm).getLast? = some "Ungrouped" := by
  refine ⟨by decide, (c2_group_ordering c2ExHp c2ExWm).2.2 (by decide)⟩

/-! ## Hand-compiled regex matchers -/

/-- `\d+(\.\d+)?` at the start: the matched slice and the rest.  The
fractional part is taken only when a digit follows the dot (regex
backtracking makes the dot optional otherwise). -/
def parseNumber (l : List Char) : Option (List Char × List Char) :=
  let d1 := l.takeWhile isAsciiDigit
  if d1.isEmpty then none
  else
    match l.dropWhile isAsciiDigit with
    | '.' :: r2 =>
      let d2 := r2.takeWhile isAsciiDigit
      if d2.isEmpty then some (d1, l.dropWhile isAsciiDigit)
      else some (d1 ++ '.' :: d2, r2.dropWhile isAsciiDigit)
    | r1 => some (d1, r1)

/-- `₹\s*(\d+(?:\.\d+)?)` at the start: the amount group and the rest. -/
def parseCurrencyNum (l : List Char) : Option (List Char × List Char) :=
  match l with
  | '₹' :: r => parseNumber (r.dropWhile isWsChar)
  | _ => none

/-- `re.search(r'₹\s*\d+', ·)`: the pattern occurs somewhere. -/
def searchPriceB : List Char → Bool
  | [] => false
  | c :: rest => (parseCurrencyNum (c :: rest)).isSome || searchPriceB rest

/-- Consume a (lower-case) literal case-insensitively; returns the
matched slice (original case) and the rest. -/
def matchCI : List Char → List Char → Option (List Char × List Char)
  | [], l => some ([], l)
  | _ :: _, [] => none
  | p :: ps, c :: cs =>
    if lowerChar c = p then (matchCI ps cs).map (fun m => (c :: m.1, m.2)) else none

/-- Ordered alternation of case-insensitive literals (regex `(a|b|…)`
at the end of a pattern: the first alternative that matches wins). -/
def firstAltCI : List (List Char) → List Char → Option (List Char × List Char)
  | [], _ => none
  | a :: as, l =>
    match matchCI a l with
    | some m => some m
    | none => firstAltCI as l

/-- `^₹` (re.match). -/
def startsWithRupee (s : String) : Bool :=
  match s.data with
  | '₹' :: _ => true
  | _ => false

/-- `^\d+\s*(alt|…)` (re.match, re.I) with an integer number part. -/
def matchDigitsSpacesAlt (alts : List (List Char)) (l : List Char) : Bool :=
  let d := l.takeWhile isAsciiDigit
  if d.isEmpty then false
  else (firstAltCI alts ((l.dropWhile isAsciiDigit).dropWhile isWsChar)).isSome

/-- `^\d+(\.\d+)?\s*(alt|…)` (re.match, re.I). -/
def matchNumSpacesAlt (alts : List (List Char)) (l : List Char) : Bool :=
  match parseNumber l with
  | none => false
  | some m => (firstAltCI alts (m.2.dropWhile isWsChar)).isSome

/-- `re.search(r'(\d+(?:\.\d+)?)\s*(alt|…)', ·, re.I)`: leftmost
match; returns the two groups (number slice, unit slice). -/
def searchNumUnit (alts : List (List Char)) : List Char → Option (List Char × List Char)
  | [] => none
  | c :: rest =>
    match parseNumber (c :: rest) with
    | some m =>
      match firstAltCI alts (m.2.dropWhile isWsChar) with
      | some u => some (m.1, u.1)
      | none => searchNumUnit alts rest
    | none => searchNumUnit alts rest

/-- `re.search(r'/(kg|pc|gm|piece)', ·, re.I)`: group 1 of the
leftmost match. -/
def searchSlashUnit : List Char → Option (List Char)
  | [] => none
  | '/' :: rest =>
    match firstAltCI [['k','g'], ['p','c'], ['g','m'], "piece".data] rest with
    | some u => some u.1
    | none => searchSlashUnit rest
  | _ :: rest => searchSlashUnit rest

/-- `re.search(r'\s(kg|pc|gm|piece)\s', ·, re.I)`: group 1 of the
leftmost match. -/
def searchWsUnit : List Char → Option (List Char)
  | [] => none
  | c :: rest =>
    if isWsChar c then
      match firstAltCI [['k','g'], ['p','c'], ['g','m'], "piece".data] rest with
      | some u =>
        match u.2 with
        | d :: _ => if isWsChar d then some u.1 else searchWsUnit rest
        | [] => searchWsUnit rest
      | none => searchWsUnit rest
    else searchWsUnit rest

/-! ## Bulk-tier and base-price extraction (`HyperpureScraper`) -/

/-- One bulk pattern
`₹\s*(\d+(?:\.\d+)?)\s*/\s*UNIT\s+for\s+(\d+)\s*UNITs?\+` (re.I),
tried at the start of `l`; returns the two groups (amount, quantity)
and the number of characters consumed by the whole match. -/
def bulkMatchAt (unit : List Char) (l : List Char) : Option ((String × String) × Nat) :=
  match parseCurrencyNum l with
  | none => none
  | some (amt, r1) =>
    match r1.dropWhile isWsChar with
    | '/' :: r3 =>
      match matchCI unit (r3.dropWhile isWsChar) with
      | none => none
      | some (_, r5) =>
        if (r5.takeWhile isWsChar).isEmpty then none
        else
          match matchCI ['f','o','r'] (r5.dropWhile isWsChar) with
          | none => none
          | some (_, r6) =>
            if (r6.takeWhile isWsChar).isEmpty then none
            else
              let r7 := r6.dropWhile isWsChar
              let qty := r7.takeWhile isAsciiDigit
              if qty.isEmpty then none
              else
                match matchCI unit ((r7.dropWhile isAsciiDigit).dropWhile isWsChar) with
                | none => none
                | some (_, r9) =>
                  match r9 with
                  | '+' :: r10 => some ((⟨amt⟩, ⟨qty⟩), l.length - r10.length)
                  | c :: '+' :: r10 =>
                    if lowerChar c = 's' then some ((⟨amt⟩, ⟨qty⟩), l.length - r10.length)
                    else none
                  | _ => none
    | _ => none

/-- `re.findall` scan for one bulk pattern: non-overlapping matches,
continuing after each match (fuel bounds the scan length). -/
def bulkFindallF (unit : List Char) : Nat → List Char → List (String × String)
  | 0, _ => []
  | _ + 1, [] => []
  | fuel + 1, c :: rest =>
    match bulkMatchAt unit (c :: rest) with
    | some (pq, len) => pq :: bulkFindallF unit fuel (List.drop len (c :: rest))
    | none => bulkFindallF unit fuel rest

/-- `re.findall` of one bulk pattern over the whole text. -/
def bulkFindall (unit : String) (text : List Char) : List (String × String) :=
  bulkFindallF unit.data text.length text

/-- The four bulk patterns of the source, in order: per piece, per kg,
per gm, per piece variant; their matches are concatenated. -/
def bulk_prices (text : List Char) : List (String × String) :=
  bulkFindall "pc" text ++ bulkFindall "kg" text ++
    bulkFindall "gm" text ++ bulkFindall "piece" text

/-- `re.finditer(r'₹\s*(\d+(?:\.\d+)?)', ·)` with positions:
(amount group, match start, match end), non-overlapping. -/
def priceFinditerF : Nat → List Char → Nat → List (String × Nat × Nat)
  | 0, _, _ => []
  | _ + 1, [], _ => []
  | fuel + 1, c :: rest, pos =>
    match parseCurrencyNum (c :: rest) with
    | some (amt, r2) =>
      (⟨amt⟩, pos, pos + ((c :: rest).length - r2.length))
        :: priceFinditerF fuel r2 (pos + ((c :: rest).length - r2.length))
    | none => priceFinditerF fuel rest (pos + 1)

/-- All currency-amount matches of the text, in scan order. -/
def priceMatches (text : List Char) : List (String × Nat × Nat) :=
  priceFinditerF text.length text 0

/-- `int(·)` on a digit string. -/
def parseNatDigits (s : String) : Nat :=
  s.data.foldl (fun n c => n * 10 + (c.toNat - 48)) 0

/-- `'pc' in element_text.lower() or 'piece' in element_text.lower()`. -/
def pcCond (text : List Char) : Bool :=
  subIn ['p','c'] (text.map lowerChar) || subIn "piece".data (text.map lowerChar)

/-- `'kg' in element_text.lower()`. -/
def kgCond (text : List Char) : Bool := subIn ['k','g'] (text.map lowerChar)

/-- The display string of one bulk tier: the unit is chosen by
scanning the whole container text, not by the pattern that matched. -/
def bulkDisplay (text : List Char) (pq : String × String) : String :=
  if pcCond text then "₹" ++ pq.1 ++ "/pc for " ++ pq.2 ++ "pcs+"
  else if kgCond text then "₹" ++ pq.1 ++ "/kg for " ++ pq.2 ++ "kg+"
  else "₹" ++ pq.1 ++ " for " ++ pq.2 ++ "+"

/-- `sorted(bulk_prices, key=lambda x: int(x[1]), reverse=True)`:
stable, descending by the integer quantity. -/
def bulk_prices_sorted (text : List Char) : List (String × String) :=
  sortBy (fun a b => decide (parseNatDigits b.2 ≤ parseNatDigits a.2)) (bulk_prices text)

/-- The `max(0, start-50) .. end+50` character window around the base
price match (Python slice semantics on Nat truncation). -/
def ctxWindow (text : List Char) (s e : Nat) : List Char :=
  (text.drop (s - 50)).take ((e + 50) - (s - 50))

/-- The unit search around the base price: the slash pattern, then
(fallback loop of the source) the slash pattern again and the
whitespace-delimited pattern. -/
def searchCtxUnit (ctx : List Char) : Option (List Char) :=
  match searchSlashUnit ctx with
  | some u => some u
  | none =>
    match searchSlashUnit ctx with
    | some u => some u
    | none => searchWsUnit ctx

/-- The base-price tier: built from the LAST currency-amount match,
labeled with a unit found in the ±50-character window when present. -/
def mainPriceTier (text : List Char) : Option String :=
  match (priceMatches text).getLast? with
  | none => none
  | some (amt, s, e) =>
    match searchCtxUnit (ctxWindow text s e) with
    | some u => some ("Base: ₹" ++ amt ++ "/" ++ (⟨u⟩ : String))
    | none => some ("Base: ₹" ++ amt)

/-- The composed pricing list: sorted bulk-tier displays, then the
base tier, then (only if both are absent) the first bare amount. -/
def pricingInfo (text : List Char) : List String :=
  let withBase :=
    (bulk_prices_sorted text).map (bulkDisplay text) ++ (mainPriceTier text).toList
  if withBase.isEmpty then
    match priceMatches text with
    | [] => []
    | (amt, _, _) :: _ => ["₹" ++ amt]
  else withBase

/-! ## Unit extraction and name cleanup (`HyperpureScraper`) -/

/-- A falsy optional string (Python `not name`): absent or empty. -/
def falsyOpt : Option String → Bool
  | none => true
  | some s => s == ""

/-- `\d+` slice at the start (no fraction). -/
def takeNumInt (l : List Char) : Option (List Char × List Char) :=
  let d := l.takeWhile isAsciiDigit
  if d.isEmpty then none else some (d, l.dropWhile isAsciiDigit)

/-- `\d+\.?\d*` slice at the start (dot consumed even without a
following digit). -/
def takeNumDotStar (l : List Char) : Option (List Char × List Char) :=
  let d1 := l.takeWhile isAsciiDigit
  if d1.isEmpty then none
  else
    match l.dropWhile isAsciiDigit with
    | '.' :: r2 => some (d1 ++ '.' :: r2.takeWhile isAsciiDigit, r2.dropWhile isAsciiDigit)
    | r1 => some (d1, r1)

/-- `re.search(r'(NUM\s*(?:alt|…))', ·, re.I)`: leftmost match of a
number, optional whitespace, and an ordered alternation; returns the
whole group-1 slice. -/
def searchNumWsAlt (num : List Char → Option (List Char × List Char))
    (alts : List (List Char)) : List Char → Option (List Char)
  | [] => none
  | c :: rest =>
    match num (c :: rest) with
    | some m =>
      let ws := m.2.takeWhile isWsChar
      match firstAltCI alts (m.2.dropWhile isWsChar) with
      | some u => some (m.1 ++ ws ++ u.1)
      | none => searchNumWsAlt num alts rest
    | none => searchNumWsAlt num alts rest

/-- `re.search(r'(per\s+(?:kg|pc|piece|unit))', ·, re.I)`. -/
def searchPerUnit : List Char → Option (List Char)
  | [] => none
  | c :: rest =>
    match matchCI ['p','e','r'] (c :: rest) with
    | some m =>
      let ws := m.2.takeWhile isWsChar
      if ws.isEmpty then searchPerUnit rest
      else
        match firstAltCI [['k','g'], ['p','c'], "piece".data, "unit".data]
            (m.2.dropWhile isWsChar) with
        | some u => some (m.1 ++ ws ++ u.1)
        | none => searchPerUnit rest
    | none => searchPerUnit rest

/-- The ordered `unit_patterns` list of `HyperpureScraper`, each
searched over the whole text; group 1 of the first pattern that
matches anywhere, stripped. -/
def hpUnitSearch (text : List Char) : Option String :=
  match searchNumWsAlt takeNumInt [['k','g'], "kgs".data, "kilogram".data] text with
  | some u => some (pyStrip ⟨u⟩)
  | none =>
  match searchNumWsAlt takeNumInt [['g'], ['g','m'], "gram".data, "gms".data] text with
  | some u => some (pyStrip ⟨u⟩)
  | none =>
  match searchNumWsAlt takeNumInt [['p','c'], "pcs".data, "piece".data, "pieces".data] text with
  | some u => some (pyStrip ⟨u⟩)
  | none =>
  match searchNumWsAlt takeNumInt ["ltr".data, "litre".data, "liter".data, ['m','l']] text with
  | some u => some (pyStrip ⟨u⟩)
  | none =>
  match searchPerUnit text with
  | some u => some (pyStrip ⟨u⟩)
  | none =>
  match searchNumWsAlt takeNumInt ["dozen".data] text with
  | some u => some (pyStrip ⟨u⟩)
  | none =>
  match searchNumWsAlt takeNumDotStar [['k','g'], ['g','m'], ['g'], ['p','c']] text with
  | some u => some (pyStrip ⟨u⟩)
  | none => none

/-- `re.search(r'(\d+(?:\.\d+)?)\s*(kg|gm|g|pc|piece|pieces)', name, re.I)`
giving `f"{group(1)} {group(2)}"`. -/
def base_unit (name : String) : Option String :=
  match searchNumUnit [['k','g'], ['g','m'], ['g'], ['p','c'], "piece".data, "pieces".data]
      name.data with
  | some (num, u) => some ((⟨num⟩ : String) ++ " " ++ (⟨u⟩ : String))
  | none => none

/-- The `unit` field: the embedded base unit of the name, else the
first matching unit pattern of the text, else "N/A" (`unit or 'N/A'`). -/
def hpUnit (name0 : String) (text : List Char) : String :=
  let u1 := base_unit name0
  let u2 := if falsyOpt u1 then hpUnitSearch text else u1
  match u2 with
  | some u => if u == "" then "N/A" else u
  | none => "N/A"

/-- `re.sub(r'₹.*', '', ·)`: drop from each `₹` to the end of its
line (the skip flag is on while inside a match). -/
def stripRupeeGo : Bool → List Char → List Char
  | _, [] => []
  | true, c :: rest =>
    if c = '\n' then c :: stripRupeeGo false rest else stripRupeeGo true rest
  | false, c :: rest =>
    if c = '₹' then stripRupeeGo true rest else c :: stripRupeeGo false rest

/-- `re.sub(r'\s+', ' ', ·)`: collapse whitespace runs to one space
(the flag records whether the previous character was whitespace). -/
def collapseWsGo : Bool → List Char → List Char
  | _, [] => []
  | prevWs, c :: rest =>
    if isWsChar c then
      (if prevWs then collapseWsGo true rest else ' ' :: collapseWsGo true rest)
    else c :: collapseWsGo false rest

/-- The noise words removed from names, verbatim from the source. -/
def noiseWords : List String := ["add", "added", "view", "buy", "select", "choose"]

/-- Try each noise word at the start of `l` (case-insensitive) with a
right word boundary; returns the rest after the match. -/
def tryNoiseAt (l : List Char) : Option (List Char) :=
  noiseWords.findSome? (fun w =>
    match matchCI w.data l with
    | some (_, rest) =>
      match rest with
      | [] => some rest
      | d :: _ => if isWordChar d then none else some rest
    | none => none)

/-- `re.sub(r'\b(add|added|view|buy|select|choose)\b', '', ·, re.I)`:
scan with a left-boundary flag (previous character is a word
character), replacing matches by nothing. -/
def removeNoiseF : Nat → List Char → Bool → List Char
  | 0, l, _ => l
  | _ + 1, [], _ => []
  | fuel + 1, c :: rest, prevWord =>
    if prevWord then c :: removeNoiseF fuel rest (isWordChar c)
    else
      match tryNoiseAt (c :: rest) with
      | some rest2 => removeNoiseF fuel rest2 true
      | none => c :: removeNoiseF fuel rest (isWordChar c)

/-- The name cleanup of `_extract_product_info`: strip price text,
collapse whitespace, remove noise words. -/
def cleanupName (n : String) : String :=
  let a := pyStrip ⟨stripRupeeGo false n.data⟩
  let b := collapseWsGo false a.data
  pyStrip ⟨removeNoiseF b.length b false⟩

/-! ## Name validation (`HyperpureScraper`) -/

/-- The number of alphabetic characters (`sum(c.isalpha())`). -/
def letterCount (s : String) : Nat := (s.data.filter isAsciiLetter).length

/-- `any(c.isalnum())`. -/
def anyAlnum (s : String) : Bool :=
  s.data.any (fun c => isAsciiLetter c || isAsciiDigit c)

/-- Exact case-insensitive match of a whole string. -/
def exactCI (w : List Char) (l : List Char) : Bool :=
  match matchCI w l with
  | some (_, []) => true
  | _ => false

/-- `^[\d\.\s]+(kg|gm|g|pc|piece|pieces|pack|packs)$` (re.I): a
nonempty run of digits/dots/whitespace, then a unit word, then the
end. -/
def matchOnlyQty (n : String) : Bool :=
  let cls := fun c => isAsciiDigit c || c == '.' || isWsChar c
  let run := n.data.takeWhile cls
  if run.isEmpty then false
  else
    [['k','g'], ['g','m'], ['g'], ['p','c'], "piece".data, "pieces".data,
      "pack".data, "packs".data].any (fun a => exactCI a (n.data.dropWhile cls))

/-- `^\d+(\.\d+)?\s*(kg|gm|g|pc|pack)` (re.I). -/
def matchStartsQty (n : String) : Bool :=
  matchNumSpacesAlt [['k','g'], ['g','m'], ['g'], ['p','c'], "pack".data] n.data

/-- `^(pack|packs|\d+\s*pack)$` (re.I). -/
def matchPackOnly (n : String) : Bool :=
  exactCI "pack".data n.data || exactCI "packs".data n.data ||
    (let d := n.data.takeWhile isAsciiDigit
     !d.isEmpty && exactCI "pack".data ((n.data.dropWhile isAsciiDigit).dropWhile isWsChar))

/-- The strict validation block of `_extract_product_info`: the
cleaned name must fail every rejection rule. -/
def validName (n : String) : Bool :=
  !(matchOnlyQty n) && !(matchStartsQty n) && !(decide (n.length < 5)) &&
    !(decide (letterCount n < 3)) && anyAlnum n && !(matchPackOnly n)

/-! ## Document trees -/

/-- A parsed-markup node: a text node, or an element with a tag, an
attribute list, and children.  This mirrors the read-only interface
the scraper consumes (tag name, attribute lookup, children,
flattened text). -/
inductive Node where
  | text : String → Node
  | elem : String → List (String × String) → List Node → Node

mutual
def nodeBeq : Node → Node → Bool
  | .text s, .text t => s == t
  | .elem t1 a1 c1, .elem t2 a2 c2 => t1 == t2 && a1 == a2 && nodeListBeq c1 c2
  | _, _ => false
def nodeListBeq : List Node → List Node → Bool
  | [], [] => true
  | a :: as, b :: bs => nodeBeq a b && nodeListBeq as bs
  | _, _ => false
end

mutual
theorem nodeBeq_iff : ∀ a b : Node, nodeBeq a b = true ↔ a = b
  | .text s, .text t => by simp [nodeBeq]
  | .text _, .elem _ _ _ => by simp [nodeBeq]
  | .elem _ _ _, .text _ => by simp [nodeBeq]
  | .elem t1 a1 c1, .elem t2 a2 c2 => by
    simp only [nodeBeq, Bool.and_eq_true, beq_iff_eq, nodeListBeq_iff c1 c2, Node.elem.injEq]
    tauto
theorem nodeListBeq_iff : ∀ a b : List Node, nodeListBeq a b = true ↔ a = b
  | [], [] => by simp [nodeListBeq]
  | [], _ :: _ => by simp [nodeListBeq]
  | _ :: _, [] => by simp [nodeListBeq]
  | a :: as, b :: bs => by
    simp only [nodeListBeq, Bool.and_eq_true, nodeBeq_iff a b, nodeListBeq_iff as bs,
      List.cons.injEq]
end

instance : DecidableEq Node := fun a b => decidable_of_iff _ (nodeBeq_iff a b)

mutual
/-- All text-node strings of the subtree, in document order. -/
def nodeTexts : Node → List String
  | .text s => [s]
  | .elem _ _ cs => nodeTextsList cs
def nodeTextsList : List Node → List String
  | [] => []
  | c :: cs => nodeTexts c ++ nodeTextsList cs
end

/-- `get_text()`: concatenation of all text-node strings. -/
def getText (n : Node) : String := String.join (nodeTexts n)

/-- `get_text(strip=True)`: concatenation of the individually
stripped, non-empty text-node strings. -/
def getTextStrip (n : Node) : String :=
  String.join (((nodeTexts n).map pyStrip).filter (fun s => !(s == "")))

/-- `stripped_strings`: the stripped, non-empty text-node strings. -/
def strippedStrings (n : Node) : List String :=
  ((nodeTexts n).map pyStrip).filter (fun s => !(s == ""))

def isElemNode : Node → Bool
  | .text _ => false
  | .elem _ _ _ => true

mutual
/-- All proper element descendants, preorder (document order). -/
def descElems : Node → List Node
  | .text _ => []
  | .elem _ _ cs => descElemsList cs
def descElemsList : List Node → List Node
  | [] => []
  | c :: cs => (if isElemNode c then [c] else []) ++ descElems c ++ descElemsList cs
end

def tagOf : Node → String
  | .text _ => ""
  | .elem t _ _ => t

def getAttr (attrs : List (String × String)) (k : String) : Option String :=
  (attrs.find? (fun p => p.1 == k)).map (fun p => p.2)

mutual
/-- All text-node strings with their ancestor chains (nearest
ancestor first), in document order. -/
def textsWithAncestors : Node → List Node → List (String × List Node)
  | .text s, anc => [(s, anc)]
  | .elem t a cs, anc => textsWithAncestorsList cs (Node.elem t a cs :: anc)
def textsWithAncestorsList : List Node → List Node → List (String × List Node)
  | [], _ => []
  | c :: cs, anc => textsWithAncestors c anc ++ textsWithAncestorsList cs anc
end

/-! ## Hyperpure name strategies -/

/-- The stop words of name strategy 1, verbatim. -/
def hpStopWords : List String := ["add", "added", "view", "buy"]

/-- Strategy 1: scan heading/paragraph/inline tags (tags outer loop,
document order inner) for the first acceptable text. -/
def strat1 (el : Node) : Option String :=
  (["h1","h2","h3","h4","h5","h6","p","span","div"].flatMap
      (fun tag => (descElems el).filter (fun d => tagOf d == tag))).findSome?
    (fun nameElem =>
      let t := getTextStrip nameElem
      if decide (5 < t.length) && decide (t.length < 100) && !(startsWithRupee t) &&
          !(matchDigitsSpacesAlt [['k','g'], ['g','m'], ['p','c']] t.data) &&
          !(decide (pyLower t ∈ hpStopWords)) && t.data.any isAsciiLetter then
        some t
      else none)

/-- `element_text.split('\n')` worker. -/
def splitNlGo : List Char → List Char → List (List Char)
  | [], acc => [acc.reverse]
  | c :: cs, acc =>
    if c = '\n' then acc.reverse :: splitNlGo cs [] else splitNlGo cs (c :: acc)

/-- The stripped non-empty lines of the text. -/
def linesOf (text : String) : List String :=
  ((splitNlGo text.data []).map (fun l => pyStrip ⟨l⟩)).filter (fun s => !(s == ""))

/-- Strategy 2: find a price-bearing line and scan the preceding
lines backwards for a name. -/
def strat2 (text : String) : Option String :=
  let lines := linesOf text
  (List.range lines.length).findSome? (fun i =>
    match lines[i]? with
    | none => none
    | some line =>
      if searchPriceB line.data then
        ((lines.take i).reverse).find? (fun pl =>
          decide (5 < pl.length) && decide (pl.length < 100) &&
            !(match pl.data with | c :: _ => isAsciiDigit c | [] => false) &&
            pl.data.any isAsciiLetter)
      else none)

/-- Strategy 3: the longest stripped text fragment that carries no
price and no leading quantity (stable longest-first sort). -/
def strat3 (el : Node) : Option String :=
  let cands := ((nodeTexts el).map pyStrip).filter (fun t =>
    decide (10 < t.length) && decide (t.length < 100) && !(searchPriceB t.data) &&
      !(matchNumSpacesAlt [['k','g'], ['g','m'], ['g'], ['p','c'], "piece".data] t.data) &&
      t.data.any isAsciiLetter)
  (sortBy (fun a b => decide (b.length ≤ a.length)) cands).head?

/-- Strategy 4: the first stripped string longer than 4 characters
with a letter, skipping quantities and prices. -/
def strat4 (el : Node) : Option String :=
  (strippedStrings el).findSome? (fun t =>
    if matchNumSpacesAlt [['k','g'], ['g','m'], ['g'], ['p','c']] t.data then none
    else if startsWithRupee t then none
    else if decide (4 < t.length) && t.data.any isAsciiLetter then some t
    else none)

/-- The ordered name-strategy cascade. -/
def hpName (el : Node) : Option String :=
  match strat1 el with
  | some n => some n
  | none =>
    match strat2 (getText el) with
    | some n => some n
    | none =>
      match strat3 el with
      | some n => some n
      | none => strat4 el

/-- `HyperpureScraper._extract_product_info`: name, composed pricing
string, unit — or nothing when the name is missing, no pricing is
found, or the cleaned name fails validation. -/
def hp_extract_product_info (el : Node) : Option SrcRec :=
  let element_text := (getText el).data
  match hpName el with
  | none => none
  | some name0 =>
    if name0 = "" then none
    else
      let pricing := pricingInfo element_text
      if pricing.isEmpty then none
      else
        let cleaned := cleanupName name0
        if validName cleaned then
          some ⟨cleaned, String.intercalate " | " pricing, hpUnit name0 element_text⟩
        else none

/-! ## WholesaleMandi extractor -/

/-- The heading loop of `WholesaleMandiScraper._extract_product_info`:
`find(tag)` for h1..h5; the name is assigned whenever a heading
exists, but the loop stops only when its text is longer than 2. -/
def wmHeadLoop (el : Node) : List String → Option String → Option String
  | [], acc => acc
  | tag :: tags, acc =>
    match (descElems el).find? (fun d => tagOf d == tag) with
    | some h =>
      let t := getTextStrip h
      if decide (2 < t.length) then some t else wmHeadLoop el tags (some t)
    | none => wmHeadLoop el tags acc

/-- `find(class_=re.compile(r'(title|name)', re.I))`: the first
element whose class attribute contains "title" or "name". -/
def classTitleName (d : Node) : Bool :=
  match d with
  | .text _ => false
  | .elem _ attrs _ =>
    match getAttr attrs "class" with
    | some v => containsSub (pyLower v) "title" || containsSub (pyLower v) "name"
    | none => false

/-- `^₹|^Rs` (re.match, case-sensitive). -/
def startsRupeeOrRs (t : String) : Bool :=
  match t.data with
  | '₹' :: _ => true
  | 'R' :: 's' :: _ => true
  | _ => false

/-- The Mandi name cascade (falsy names fall through). -/
def wmName (el : Node) : Option String :=
  let n1 := wmHeadLoop el ["h1", "h2", "h3", "h4", "h5"] none
  let n2 :=
    if falsyOpt n1 then
      match (descElems el).find? classTitleName with
      | some e => some (getTextStrip e)
      | none => n1
    else n1
  if falsyOpt n2 then
    (strippedStrings el).find? (fun t =>
      decide (5 < t.length) && decide (t.length < 100) && !(startsRupeeOrRs t))
  else n2

/-- `(?:,\d+)*` after the integer part (fuel bounds the scan). -/
def commaTailF : Nat → List Char → List Char × List Char
  | 0, l => ([], l)
  | fuel + 1, l =>
    match l with
    | ',' :: r =>
      let d := r.takeWhile isAsciiDigit
      if d.isEmpty then ([], l)
      else
        let m := commaTailF fuel (r.dropWhile isAsciiDigit)
        (',' :: d ++ m.1, m.2)
    | _ => ([], l)

/-- `\d+(?:,\d+)*(?:\.\d+)?` at the start. -/
def parseNumComma (l : List Char) : Option (List Char × List Char) :=
  let d1 := l.takeWhile isAsciiDigit
  if d1.isEmpty then none
  else
    let r1 := l.dropWhile isAsciiDigit
    let m := commaTailF r1.length r1
    match m.2 with
    | '.' :: r2 =>
      let d2 := r2.takeWhile isAsciiDigit
      if d2.isEmpty then some (d1 ++ m.1, m.2)
      else some (d1 ++ m.1 ++ '.' :: d2, r2.dropWhile isAsciiDigit)
    | _ => some (d1 ++ m.1, m.2)

/-- `re.search(r'₹\s*(NUM)', ·)` (case-sensitive): group 1 of the
leftmost match. -/
def searchRupeeNum : List Char → Option (List Char)
  | [] => none
  | '₹' :: rest =>
    match parseNumComma (rest.dropWhile isWsChar) with
    | some m => some m.1
    | none => searchRupeeNum rest
  | _ :: rest => searchRupeeNum rest

/-- `re.search(r'Rs\.?\s*(NUM)', ·)` (case-sensitive). -/
def searchRsNum : List Char → Option (List Char)
  | [] => none
  | 'R' :: 's' :: rest =>
    let r1 := match rest with
      | '.' :: r => r
      | r => r
    (match parseNumComma (r1.dropWhile isWsChar) with
     | some m => some m.1
     | none => searchRsNum ('s' :: rest))
  | _ :: rest => searchRsNum rest

/-- `re.search(r'INR\s*(NUM)', ·)` (case-sensitive). -/
def searchINRNum : List Char → Option (List Char)
  | [] => none
  | 'I' :: 'N' :: 'R' :: rest =>
    (match parseNumComma (rest.dropWhile isWsChar) with
     | some m => some m.1
     | none => searchINRNum ('N' :: 'R' :: rest))
  | _ :: rest => searchINRNum rest

/-- The three Mandi price patterns, in order; the price string is
`"₹" + group(1)` of the first pattern that matches. -/
def wmPrice (text : List Char) : Option String :=
  match searchRupeeNum text with
  | some amt => some ("₹" ++ (⟨amt⟩ : String))
  | none =>
    match searchRsNum text with
    | some amt => some ("₹" ++ (⟨amt⟩ : String))
    | none =>
      match searchINRNum text with
      | some amt => some ("₹" ++ (⟨amt⟩ : String))
      | none => none

/-- `re.search(r'/\s*(kg|gm|pc|piece|unit)', ·, re.I)`: group 1. -/
def searchSlashWsUnit : List Char → Option (List Char)
  | [] => none
  | '/' :: rest =>
    match firstAltCI [['k','g'], ['g','m'], ['p','c'], "piece".data, "unit".data]
        (rest.dropWhile isWsChar) with
    | some u => some u.1
    | none => searchSlashWsUnit rest
  | _ :: rest => searchSlashWsUnit rest

/-- The ordered Mandi `unit_patterns`: group 1 of the first pattern
that matches anywhere, stripped. -/
def wmUnitSearch (text : List Char) : Option String :=
  match searchNumWsAlt takeNumInt [['k','g'], "kgs".data, "kilogram".data] text with
  | some u => some (pyStrip ⟨u⟩)
  | none =>
  match searchNumWsAlt takeNumInt [['g'], ['g','m'], "gram".data, "gms".data] text with
  | some u => some (pyStrip ⟨u⟩)
  | none =>
  match searchNumWsAlt takeNumInt [['p','c'], "pcs".data, "piece".data, "pieces".data] text with
  | some u => some (pyStrip ⟨u⟩)
  | none =>
  match searchNumWsAlt takeNumInt ["ltr".data, "litre".data, ['m','l']] text with
  | some u => some (pyStrip ⟨u⟩)
  | none =>
  match searchPerUnit text with
  | some u => some (pyStrip ⟨u⟩)
  | none =>
  match searchSlashWsUnit text with
  | some u => some (pyStrip ⟨u⟩)
  | none => none

/-- `unit or 'N/A'` for the Mandi record. -/
def wmUnit (text : List Char) : String :=
  match wmUnitSearch text with
  | some u => if u == "" then "N/A" else u
  | none => "N/A"

/-- `re.sub(r'₹.*|Rs\.?.*', '', ·)`: drop from each `₹` or `Rs`
occurrence to the end of its line. -/
def stripRupeeRsGo : Bool → List Char → List Char
  | _, [] => []
  | true, c :: rest =>
    if c = '\n' then c :: stripRupeeRsGo false rest else stripRupeeRsGo true rest
  | false, '₹' :: rest => stripRupeeRsGo true rest
  | false, 'R' :: 's' :: rest => stripRupeeRsGo true rest
  | false, c :: rest => c :: stripRupeeRsGo false rest

/-- The Mandi name cleanup: strip price text, then
`' '.join(name.split())`. -/
def wmCleanName (n : String) : String :=
  let a := pyStrip ⟨stripRupeeRsGo false n.data⟩
  String.intercalate " " (pySplit a)

/-- `WholesaleMandiScraper._extract_product_info`: name and price are
required; the name undergoes NO quantity/letter validation. -/
def wm_extract_product_info (el : Node) : Option SrcRec :=
  let text := (getText el).data
  match wmName el with
  | none => none
  | some name0 =>
    if name0 = "" then none
    else
      match wmPrice text with
      | none => none
      | some price => some ⟨wmCleanName name0, price, wmUnit text⟩

/-- Anatomy of a successful Hyperpure extraction: the record fields
are the cleaned name, the joined pricing list and the unit, and the
cleaned name passed validation. -/
theorem hp_extract_fields (el : Node) (item : SrcRec)
    (h : hp_extract_product_info el = some item) :
    ∃ name0, hpName el = some name0 ∧ name0 ≠ "" ∧
      (pricingInfo (getText el).data).isEmpty = false ∧
      item = ⟨cleanupName name0,
        String.intercalate " | " (pricingInfo (getText el).data),
        hpUnit name0 (getText el).data⟩ ∧
      validName (cleanupName name0) = true := by
  unfold hp_extract_product_info at h
  rcases hn : hpName el with _ | name0
  · rw [hn] at h
    simp at h
  · rw [hn] at h
    simp only at h
    by_cases h0 : name0 = ""
    · rw [if_pos h0] at h
      simp at h
    · rw [if_neg h0] at h
      by_cases hp : (pricingInfo (getText el).data).isEmpty = true
      · rw [if_pos hp] at h
        simp at h
      · rw [if_neg hp] at h
        by_cases hv : validName (cleanupName name0) = true
        · rw [if_pos hv] at h
          injection h with h2
          exact ⟨name0, rfl, h0, by simpa using hp, h2.symm, hv⟩
        · rw [if_neg hv] at h
          simp at h

/-- The two structural parts of `validName` that Claim C3 asserts. -/
theorem validName_parts {n : String} (hv : validName n = true) :
    3 ≤ letterCount n ∧ matchOnlyQty n = false := by
  rw [validName] at hv
  simp only [Bool.and_eq_true, Bool.not_eq_true', decide_eq_false_iff_not, not_lt] at hv
  exact ⟨hv.1.1.2, hv.1.1.1.1.1⟩

/-- Claim C3, amended part: every record produced by the HYPERPURE
extractor has a name with at least 3 alphabetic characters that is
not matched entirely by the quantity/unit-only pattern; a candidate
whose cleaned name violates these rules yields no record there. -/
theorem c3_validation_amended (el : Node) (item : SrcRec)
    (h : hp_extract_product_info el = some item) :
    3 ≤ letterCount item.name ∧ matchOnlyQty item.name = false := by
  obtain ⟨name0, _, _, _, hitem, hv⟩ := hp_extract_fields el item h
  have := validName_parts hv
  rw [hitem]
  exact this

/-- A Mandi container whose only heading text is the two-letter "ab". -/
def exMandiC3 : Node :=
  Node.elem "div" [] [Node.elem "h1" [] [Node.text "ab"], Node.text " ₹5"]

/-- Claim C3, counterexample: the WholesaleMandi extractor performs
no name validation — it produces a record whose name has fewer than
3 alphabetic characters. -/
theorem c3_validation_counterexample :
    wm_extract_product_info exMandiC3 = some ⟨"ab", "₹5", "N/A"⟩ ∧
    letterCount "ab" < 3 := by
  constructor
  · decide
  · decide

/-- A Hyperpure container with a heading name and a bare price. -/
def exHpC3 : Node :=
  Node.elem "div" [] [Node.elem "h3" [] [Node.text "Fresh Cauliflower"], Node.text " ₹45"]

theorem c3_validation_amended_witness :
    hp_extract_product_info exHpC3 = some ⟨"Fresh Cauliflower", "Base: ₹45", "N/A"⟩ ∧
    3 ≤ letterCount (SrcRec.mk "Fresh Cauliflower" "Base: ₹45" "N/A").name ∧
    matchOnlyQty (SrcRec.mk "Fresh Cauliflower" "Base: ₹45" "N/A").name = false := by
  have h : hp_extract_product_info exHpC3
      = some ⟨"Fresh Cauliflower", "Base: ₹45", "N/A"⟩ := by decide
  exact ⟨h, (c3_validation_amended exHpC3 _ h).1, (c3_validation_amended exHpC3 _ h).2⟩

/-! ## Facts about the price scanners -/

theorem dropWhile_length_le (p : Char → Bool) (l : List Char) :
    (l.dropWhile p).length ≤ l.length :=
  (List.dropWhile_suffix p).sublist.length_le

theorem parseNumber_rest_le {l m r : List Char}
    (h : parseNumber l = some (m, r)) : r.length ≤ l.length := by
  have hd := dropWhile_length_le isAsciiDigit l
  simp only [parseNumber] at h
  by_cases h1 : (l.takeWhile isAsciiDigit).isEmpty = true
  · rw [if_pos h1] at h
    exact absurd h (by simp)
  · rw [if_neg h1] at h
    split at h
    · rename_i r2 heq
      by_cases h2 : (r2.takeWhile isAsciiDigit).isEmpty = true
      · rw [if_pos h2] at h
        injection h with h2'
        have h3 : r = l.dropWhile isAsciiDigit := (congrArg Prod.snd h2').symm
        rw [h3]
        exact hd
      · rw [if_neg h2] at h
        injection h with h2'
        have h3 : r = r2.dropWhile isAsciiDigit := (congrArg Prod.snd h2').symm
        rw [heq] at hd
        have h5 := dropWhile_length_le isAsciiDigit r2
        rw [h3]
        simp only [List.length_cons] at hd
        omega
    · injection h with h2'
      have h3 : r = l.dropWhile isAsciiDigit := (congrArg Prod.snd h2').symm
      rw [h3]
      exact hd

theorem parseCurrencyNum_rest_lt {l amt r : List Char}
    (h : parseCurrencyNum l = some (amt, r)) : r.length < l.length := by
  unfold parseCurrencyNum at h
  split at h
  · next rest =>
    have h1 := parseNumber_rest_le h
    have h2 := dropWhile_length_le isWsChar rest
    simp only [List.length_cons]
    omega
  · exact absurd h (by simp)

theorem bulkMatchAt_hasPrice {u l : List Char} {x : (String × String) × Nat}
    (h : bulkMatchAt u l = some x) : (parseCurrencyNum l).isSome = true := by
  unfold bulkMatchAt at h
  cases hpc : parseCurrencyNum l with
  | none =>
    rw [hpc] at h
    simp at h
  | some m => rfl

theorem bulkFindallF_price {u : List Char} :
    ∀ (fuel : Nat) (l : List Char), bulkFindallF u fuel l ≠ [] →
      ∃ t, t <:+ l ∧ (parseCurrencyNum t).isSome = true := by
  intro fuel
  induction fuel with
  | zero =>
    intro l h
    exact absurd rfl h
  | succ fuel ih =>
    intro l h
    cases l with
    | nil => exact absurd rfl h
    | cons c rest =>
      rw [bulkFindallF] at h
      cases hb : bulkMatchAt u (c :: rest) with
      | some x =>
        exact ⟨c :: rest, List.suffix_refl _, bulkMatchAt_hasPrice hb⟩
      | none =>
        rw [hb] at h
        obtain ⟨t, ht, hp⟩ := ih rest h
        exact ⟨t, ht.trans (List.suffix_cons c rest), hp⟩

theorem priceFinditerF_ne_nil :
    ∀ (fuel : Nat) (l t : List Char) (pos : Nat), l.length ≤ fuel → t <:+ l →
      (parseCurrencyNum t).isSome = true → priceFinditerF fuel l pos ≠ [] := by
  intro fuel
  induction fuel with
  | zero =>
    intro l t pos hle hsuf hsome
    have hl : l = [] := List.eq_nil_of_length_eq_zero (Nat.le_zero.mp hle)
    subst hl
    have ht : t = [] := List.suffix_nil.mp hsuf
    subst ht
    exact absurd hsome (by decide)
  | succ fuel ih =>
    intro l t pos hle hsuf hsome
    cases l with
    | nil =>
      have ht : t = [] := List.suffix_nil.mp hsuf
      subst ht
      exact absurd hsome (by decide)
    | cons c rest =>
      rw [priceFinditerF]
      cases hpc : parseCurrencyNum (c :: rest) with
      | some m => simp
      | none =>
        rcases List.suffix_cons_iff.mp hsuf with he | hsuf2
        · rw [he] at hsome
          rw [hpc] at hsome
          simp at hsome
        · simp only [List.length_cons, Nat.succ_le_succ_iff] at hle
          exact ih rest t (pos + 1) hle hsuf2 hsome

theorem bulk_prices_to_priceMatches {text : List Char}
    (h : bulk_prices text ≠ []) : priceMatches text ≠ [] := by
  have hex : ∃ t, t <:+ text ∧ (parseCurrencyNum t).isSome = true := by
    rw [bulk_prices] at h
    by_cases h1 : bulkFindall "pc" text = []
    · by_cases h2 : bulkFindall "kg" text = []
      · by_cases h3 : bulkFindall "gm" text = []
        · have h4 : bulkFindall "piece" text ≠ [] := by
            intro h4
            apply h
            rw [h1, h2, h3, h4]
            rfl
          exact bulkFindallF_price _ _ h4
        · exact bulkFindallF_price _ _ h3
      · exact bulkFindallF_price _ _ h2
    · exact bulkFindallF_price _ _ h1
  obtain ⟨t, ht, hp⟩ := hex
  exact priceFinditerF_ne_nil text.length text t 0 (le_refl _) ht hp

/-- Claim C6: for every record the Hyperpure extractor produces from a
container with at least two bulk price tiers, the composed pricing
list is exactly the bulk-tier display strings sorted non-increasingly
by minimum quantity followed by the base-price tier, and the record's
price field joins that list with " | "; in particular every bulk tier
precedes the base tier. -/
theorem c6_tier_ordering (el : Node) (item : SrcRec)
    (h : hp_extract_product_info el = some item)
    (h2 : 2 ≤ (bulk_prices (getText el).data).length) :
    ∃ base, mainPriceTier (getText el).data = some base ∧
      pricingInfo (getText el).data =
        (bulk_prices_sorted (getText el).data).map
          (bulkDisplay (getText el).data) ++ [base] ∧
      item.price = String.intercalate " | " (pricingInfo (getText el).data) ∧
      List.Pairwise
        (fun a b => parseNatDigits b.2 ≤ parseNatDigits a.2)
        (bulk_prices_sorted (getText el).data) := by
  obtain ⟨name0, hn, h0, hpne, hitem, hv⟩ := hp_extract_fields el item h
  have hbne : bulk_prices (getText el).data ≠ [] := by
    intro he
    rw [he] at h2
    simp at h2
  have hpm : priceMatches (getText el).data ≠ [] := bulk_prices_to_priceMatches hbne
  cases hlast : (priceMatches (getText el).data).getLast? with
  | none =>
    have hls := List.getLast?_isSome.mpr hpm
    rw [hlast] at hls
    simp at hls
  | some x =>
    obtain ⟨amt, s, e⟩ := x
    have hmain : ∃ base, mainPriceTier (getText el).data = some base := by
      simp only [mainPriceTier, hlast]
      cases searchCtxUnit (ctxWindow (getText el).data s e) with
      | some u => exact ⟨"Base: ₹" ++ amt ++ "/" ++ (⟨u⟩ : String), rfl⟩
      | none => exact ⟨"Base: ₹" ++ amt, rfl⟩
    obtain ⟨base, hbase⟩ := hmain
    refine ⟨base, hbase, ?_, ?_, ?_⟩
    · rw [pricingInfo]
      simp [hbase]
    · rw [hitem]
    · have htot : ∀ a b : String × String,
          (decide (parseNatDigits b.2 ≤ parseNatDigits a.2)) = true ∨
          (decide (parseNatDigits a.2 ≤ parseNatDigits b.2)) = true := by
        intro a b
        rcases Nat.le_total (parseNatDigits b.2) (parseNatDigits a.2) with hle | hle
        · exact Or.inl (decide_eq_true hle)
        · exact Or.inr (decide_eq_true hle)
      have htrans : ∀ a b c : String × String,
          decide (parseNatDigits b.2 ≤ parseNatDigits a.2) = true →
          decide (parseNatDigits c.2 ≤ parseNatDigits b.2) = true →
          decide (parseNatDigits c.2 ≤ parseNatDigits a.2) = true := by
        intro a b c hab hbc
        exact decide_eq_true
          (Nat.le_trans (of_decide_eq_true hbc) (of_decide_eq_true hab))
      have hp := sortBy_pairwise htot htrans (bulk_prices (getText el).data)
      exact hp.imp (fun hxy => of_decide_eq_true hxy)

/-- A Hyperpure container with a heading name and two bulk price
tiers before the base price. -/
def exHpC6 : Node :=
  Node.elem "div" [] [Node.elem "h3" [] [Node.text "Fresh Apple Premium"],
    Node.text " ₹56/pc for 9 pcs+ ₹57/pc for 5 pcs+ ₹60"]

theorem c6_tier_ordering_witness :
    hp_extract_product_info exHpC6 =
      some ⟨"Fresh Apple Premium",
        "₹56/pc for 9pcs+ | ₹57/pc for 5pcs+ | Base: ₹60/pc", "9 pc"⟩ ∧
    2 ≤ (bulk_prices (getText exHpC6).data).length ∧
    (∃ base, mainPriceTier (getText exHpC6).data = some base ∧
      pricingInfo (getText exHpC6).data =
        (bulk_prices_sorted (getText exHpC6).data).map
          (bulkDisplay (getText exHpC6).data) ++ [base] ∧
      (SrcRec.mk "Fresh Apple Premium"
        "₹56/pc for 9pcs+ | ₹57/pc for 5pcs+ | Base: ₹60/pc" "9 pc").price =
        String.intercalate " | " (pricingInfo (getText exHpC6).data) ∧
      List.Pairwise
        (fun a b => parseNatDigits b.2 ≤ parseNatDigits a.2)
        (bulk_prices_sorted (getText exHpC6).data)) := by
  have h : hp_extract_product_info exHpC6 =
      some ⟨"Fresh Apple Premium",
        "₹56/pc for 9pcs+ | ₹57/pc for 5pcs+ | Base: ₹60/pc", "9 pc"⟩ := by decide
  have h2 : 2 ≤ (bulk_prices (getText exHpC6).data).length := by decide
  exact ⟨h, h2, c6_tier_ordering exHpC6 _ h h2⟩

/-- Every match the price scanner reports starts at or after the
current scan position. -/
theorem priceFinditerF_le_start :
    ∀ (fuel : Nat) (l : List Char) (pos : Nat) (m : String × Nat × Nat),
      m ∈ priceFinditerF fuel l pos → pos ≤ m.2.1 := by
  intro fuel
  induction fuel with
  | zero =>
    intro l pos m hm
    rw [show priceFinditerF 0 l pos = [] from rfl] at hm
    simp at hm
  | succ fuel ih =>
    intro l pos m hm
    cases l with
    | nil =>
      rw [show priceFinditerF (fuel + 1) [] pos = [] from rfl] at hm
      simp at hm
    | cons c rest =>
      rw [priceFinditerF] at hm
      cases hpc : parseCurrencyNum (c :: rest) with
      | some x =>
        obtain ⟨amt, r2⟩ := x
        rw [hpc] at hm
        rcases List.mem_cons.mp hm with he | hm2
        · rw [he]
        · have := ih r2 (pos + ((c :: rest).length - r2.length)) m hm2
          omega
      | none =>
        rw [hpc] at hm
        have := ih rest (pos + 1) m hm
        omega

/-- The last match the price scanner reports has the largest start
position: it is the last occurrence in scan order. -/
theorem priceFinditerF_last_max :
    ∀ (fuel : Nat) (l : List Char) (pos : Nat) (x : String × Nat × Nat),
      (priceFinditerF fuel l pos).getLast? = some x →
      ∀ m ∈ priceFinditerF fuel l pos, m.2.1 ≤ x.2.1 := by
  intro fuel
  induction fuel with
  | zero =>
    intro l pos x hx
    rw [show priceFinditerF 0 l pos = [] from rfl] at hx
    simp at hx
  | succ fuel ih =>
    intro l pos x hx m hm
    cases l with
    | nil =>
      rw [show priceFinditerF (fuel + 1) [] pos = [] from rfl] at hx
      simp at hx
    | cons c rest =>
      cases hpc : parseCurrencyNum (c :: rest) with
      | some y =>
        obtain ⟨amt, r2⟩ := y
        have hred : priceFinditerF (fuel + 1) (c :: rest) pos =
            (⟨amt⟩, pos, pos + ((c :: rest).length - r2.length)) ::
              priceFinditerF fuel r2 (pos + ((c :: rest).length - r2.length)) := by
          rw [priceFinditerF, hpc]
        rw [hred] at hx hm
        cases htail : priceFinditerF fuel r2 (pos + ((c :: rest).length - r2.length)) with
        | nil =>
          rw [htail] at hx hm
          simp at hx hm
          rw [hm, ← hx]
        | cons t ts =>
          rw [htail] at hx hm
          rw [List.getLast?_cons_cons] at hx
          have hxmem : x ∈ t :: ts := List.mem_of_mem_getLast? hx
          rw [← htail] at hxmem
          have hxge := priceFinditerF_le_start fuel r2
            (pos + ((c :: rest).length - r2.length)) x hxmem
          rcases List.mem_cons.mp hm with he | hm2
          · rw [he]
            simp
            omega
          · rw [← htail] at hx hm2
            exact ih r2 (pos + ((c :: rest).length - r2.length)) x hx m hm2
      | none =>
        have hred : priceFinditerF (fuel + 1) (c :: rest) pos =
            priceFinditerF fuel rest (pos + 1) := by
          rw [priceFinditerF, hpc]
        rw [hred] at hx hm
        exact ih rest (pos + 1) x hx m hm

/-- Claim C7: when the flattened text has at least one currency
amount, the base tier is built from the LAST occurrence (the match
with the largest start position), the unit window is the slice from
50 characters before the match to 50 characters after it, and the
label is "Base: ₹amt/unit" when a unit is found there, else
"Base: ₹amt". -/
theorem c7_base_price (text : List Char) (h : priceMatches text ≠ []) :
    ∃ amt s e, (priceMatches text).getLast? = some (amt, s, e) ∧
      (amt, s, e) ∈ priceMatches text ∧
      (∀ m ∈ priceMatches text, m.2.1 ≤ s) ∧
      ctxWindow text s e = (text.take (e + 50)).drop (s - 50) ∧
      mainPriceTier text =
        some (match searchCtxUnit (ctxWindow text s e) with
          | some u => "Base: ₹" ++ amt ++ "/" ++ (⟨u⟩ : String)
          | none => "Base: ₹" ++ amt) := by
  cases hlast : (priceMatches text).getLast? with
  | none => exact absurd (List.getLast?_eq_none_iff.mp hlast) h
  | some x =>
    obtain ⟨amt, s, e⟩ := x
    refine ⟨amt, s, e, rfl, List.mem_of_mem_getLast? hlast, ?_, ?_, ?_⟩
    · intro m hm
      exact priceFinditerF_last_max text.length text 0 (amt, s, e) hlast m hm
    · rw [ctxWindow]
      exact (List.drop_take (e + 50) (s - 50) text).symm
    · simp only [mainPriceTier, hlast]
      cases searchCtxUnit (ctxWindow text s e) with
      | some u => rfl
      | none => rfl

theorem c7_base_price_witness :
    priceMatches "a ₹10 b ₹20/kg".data ≠ [] ∧
    (∃ amt s e,
      (priceMatches "a ₹10 b ₹20/kg".data).getLast? = some (amt, s, e) ∧
      (amt, s, e) ∈ priceMatches "a ₹10 b ₹20/kg".data ∧
      (∀ m ∈ priceMatches "a ₹10 b ₹20/kg".data, m.2.1 ≤ s) ∧
      ctxWindow "a ₹10 b ₹20/kg".data s e =
        ("a ₹10 b ₹20/kg".data.take (e + 50)).drop (s - 50) ∧
      mainPriceTier "a ₹10 b ₹20/kg".data =
        some (match searchCtxUnit (ctxWindow "a ₹10 b ₹20/kg".data s e) with
          | some u => "Base: ₹" ++ amt ++ "/" ++ (⟨u⟩ : String)
          | none => "Base: ₹" ++ amt)) := by
  have h : priceMatches "a ₹10 b ₹20/kg".data ≠ [] := by decide
  exact ⟨h, c7_base_price "a ₹10 b ₹20/kg".data h⟩

/-- Claim C10: the unit shown in a bulk tier's display string is
chosen by scanning the whole container text, not the pattern class
that matched the tier: "pc" or "piece" anywhere in the lowercased
text gives a "/pc" label, else "kg" anywhere gives "/kg", else the
tier carries no unit — so the three possible display templates never
carry a gram unit, and a gram-matched tier is shown with "/pc"
whenever "pc" occurs elsewhere in the text. -/
theorem c10_bulk_unit_by_text (text : List Char) (pq : String × String)
    (hmem : pq ∈ bulk_prices text) :
    bulkDisplay text pq ∈ (bulk_prices_sorted text).map (bulkDisplay text) ∧
    (subIn ['p','c'] (text.map lowerChar) = true ∨
        subIn "piece".data (text.map lowerChar) = true →
      bulkDisplay text pq = "₹" ++ pq.1 ++ "/pc for " ++ pq.2 ++ "pcs+") ∧
    (subIn ['p','c'] (text.map lowerChar) = false →
        subIn "piece".data (text.map lowerChar) = false →
        subIn ['k','g'] (text.map lowerChar) = true →
      bulkDisplay text pq = "₹" ++ pq.1 ++ "/kg for " ++ pq.2 ++ "kg+") ∧
    (subIn ['p','c'] (text.map lowerChar) = false →
        subIn "piece".data (text.map lowerChar) = false →
        subIn ['k','g'] (text.map lowerChar) = false →
      bulkDisplay text pq = "₹" ++ pq.1 ++ " for " ++ pq.2 ++ "+") := by
  refine ⟨List.mem_map_of_mem _ ((sortBy_perm _ _).mem_iff.mpr hmem), ?_, ?_, ?_⟩
  · intro hpc
    have hc : pcCond text = true := by
      rw [pcCond]
      rcases hpc with h | h
      · rw [h]
        simp
      · rw [h]
        simp
    rw [bulkDisplay, if_pos hc]
  · intro h1 h2 hk
    have hc : pcCond text = false := by
      rw [pcCond, h1, h2]
      rfl
    have hkc : kgCond text = true := hk
    rw [bulkDisplay, hc, hkc]
    simp
  · intro h1 h2 hk
    have hc : pcCond text = false := by
      rw [pcCond, h1, h2]
      rfl
    have hkc : kgCond text = false := hk
    rw [bulkDisplay, hc, hkc]
    simp

theorem c10_bulk_unit_by_text_witness :
    ("5", "10") ∈ bulk_prices "₹5/gm for 10gms+ pc".data ∧
    bulkFindall "gm" "₹5/gm for 10gms+ pc".data = [("5", "10")] ∧
    bulkFindall "pc" "₹5/gm for 10gms+ pc".data = [] ∧
    bulkDisplay "₹5/gm for 10gms+ pc".data ("5", "10") = "₹5/pc for 10pcs+" ∧
    (bulkDisplay "₹5/gm for 10gms+ pc".data ("5", "10") ∈
        (bulk_prices_sorted "₹5/gm for 10gms+ pc".data).map
          (bulkDisplay "₹5/gm for 10gms+ pc".data) ∧
      (subIn ['p','c'] ("₹5/gm for 10gms+ pc".data.map lowerChar) = true ∨
          subIn "piece".data ("₹5/gm for 10gms+ pc".data.map lowerChar) = true →
        bulkDisplay "₹5/gm for 10gms+ pc".data ("5", "10") =
          "₹" ++ ("5", "10").1 ++ "/pc for " ++ ("5", "10").2 ++ "pcs+") ∧
      (subIn ['p','c'] ("₹5/gm for 10gms+ pc".data.map lowerChar) = false →
          subIn "piece".data ("₹5/gm for 10gms+ pc".data.map lowerChar) = false →
          subIn ['k','g'] ("₹5/gm for 10gms+ pc".data.map lowerChar) = true →
        bulkDisplay "₹5/gm for 10gms+ pc".data ("5", "10") =
          "₹" ++ ("5", "10").1 ++ "/kg for " ++ ("5", "10").2 ++ "kg+") ∧
      (subIn ['p','c'] ("₹5/gm for 10gms+ pc".data.map lowerChar) = false →
          subIn "piece".data ("₹5/gm for 10gms+ pc".data.map lowerChar) = false →
          subIn ['k','g'] ("₹5/gm for 10gms+ pc".data.map lowerChar) = false →
        bulkDisplay "₹5/gm for 10gms+ pc".data ("5", "10") =
          "₹" ++ ("5", "10").1 ++ " for " ++ ("5", "10").2 ++ "+")) := by
  have hmem : ("5", "10") ∈ bulk_prices "₹5/gm for 10gms+ pc".data := by decide
  exact ⟨hmem, by decide, by decide, by decide,
    c10_bulk_unit_by_text "₹5/gm for 10gms+ pc".data ("5", "10") hmem⟩

/-! ## Candidate selection (`_scrape_all_products`, methods 1-3) -/

/-- One CSS selector of the source's `all_selectors` list: an
optional tag constraint and an optional attribute-substring
constraint (`tag[attr*="sub"]`). -/
structure Sel where
  tag : Option String
  attrSub : Option (String × String)

/-- The twelve selectors of `all_selectors`, in order. -/
def hpSelectors : List Sel :=
  [⟨some "div", some ("class", "ProductCard")⟩,
   ⟨some "div", some ("class", "product-card")⟩,
   ⟨some "div", some ("class", "ProductTile")⟩,
   ⟨some "div", some ("class", "productCard")⟩,
   ⟨some "div", some ("class", "Card")⟩,
   ⟨some "div", some ("data-testid", "product")⟩,
   ⟨some "article", some ("class", "product")⟩,
   ⟨some "article", none⟩,
   ⟨some "div", some ("class", "card")⟩,
   ⟨some "div", some ("class", "item")⟩,
   ⟨none, some ("data-qa", "product")⟩,
   ⟨none, some ("class", "product-item")⟩]

/-- Whether an element matches a selector. -/
def selMatch (s : Sel) (n : Node) : Bool :=
  (match s.tag with
   | none => true
   | some t => tagOf n == t) &&
  (match s.attrSub with
   | none => true
   | some (k, sub) =>
     match n with
     | .text _ => false
     | .elem _ attrs _ =>
       match getAttr attrs k with
       | none => false
       | some v => subIn sub.data v.data)

/-- `soup.select(selector)`: matching descendants in document order. -/
def select (s : Sel) (soup : Node) : List Node :=
  (descElems soup).filter (selMatch s)

/-- Method 1: try every selector, keep the widest result set
(`if len(found) > len(products): products = found`). -/
def widestSelection (soup : Node) : List Node :=
  hpSelectors.foldl
    (fun acc s => if acc.length < (select s soup).length then select s soup else acc) []

/-- Method 2: div/article/section nodes whose text has a currency
amount and length strictly between 20 and 600, appended to the
current candidates when not already present. -/
def method2Pass (soup : Node) (products : List Node) : List Node :=
  ((descElems soup).filter
      (fun d => tagOf d == "div" || tagOf d == "article" || tagOf d == "section")).foldl
    (fun acc div =>
      if searchPriceB (getText div).data && decide (20 < (getText div).length) &&
          decide ((getText div).length < 600) && !(acc.contains div) then
        acc ++ [div]
      else acc) products

/-- The ancestor walk of method 3: up to `lv` ancestors, nearest
first; the first one with text length in (20, 600) and a price that
is not already a candidate is appended and the walk stops; a
qualifying ancestor already present does not stop the walk. -/
def walkUp (products : List Node) : List Node → Nat → List Node
  | _, 0 => products
  | [], _ + 1 => products
  | p :: ps, lv + 1 =>
    if decide (20 < (getText p).length) && decide ((getText p).length < 600) &&
        searchPriceB (getText p).data then
      if products.contains p then walkUp products ps lv
      else products ++ [p]
    else walkUp products ps lv

/-- Method 3: for each text node matching the price pattern (document
order), walk up from its parent through five ancestor levels. -/
def method3Pass (soup : Node) (products : List Node) : List Node :=
  (textsWithAncestors soup []).foldl
    (fun acc ta => if searchPriceB ta.1.data then walkUp acc ta.2 5 else acc) products

/-- The candidate set of `_scrape_all_products`: the widest selector
result; method 2 when that has fewer than 20 candidates; method 3
when the result of THAT still has fewer than 20. -/
def hp_candidate_products (soup : Node) : List Node :=
  let m1 := widestSelection soup
  let m2 := if m1.length < 20 then method2Pass soup m1 else m1
  if m2.length < 20 then method3Pass soup m2 else m2

/-- Modelled from the spec's words, for comparison: whenever the
widest selector result has fewer than 20 candidates, BOTH fallback
passes are applied, in order. -/
def spec_candidate_products (soup : Node) : List Node :=
  let m1 := widestSelection soup
  if m1.length < 20 then method3Pass soup (method2Pass soup m1) else m1

/-- Twenty plain divs, each with a price and a text of length 21-40. -/
def c8Divs : List Node :=
  (List.range 20).map (fun i =>
    Node.elem "div" [] [Node.text ("₹1 " ++ (⟨List.replicate (18 + i) 'a'⟩ : String))])

/-- A page whose method-2 pass reaches exactly 20 candidates while a
further price-bearing element (a `p`, invisible to method 2) is still
missing. -/
def c8Soup : Node :=
  Node.elem "body" []
    (c8Divs ++ [Node.elem "p" [] [Node.text ("₹2 " ++ (⟨List.replicate 18 'b'⟩ : String))]])

set_option maxRecDepth 40000 in
/-- Claim C8, counterexample: the widest selector set is below the
threshold, yet the code does NOT apply both fallback passes — method
2 alone reaches 20 candidates, method 3 is skipped, and the result
differs from the spec-modelled both-passes pipeline. -/
theorem c8_fallback_counterexample :
    (widestSelection c8Soup).length < 20 ∧
    (method2Pass c8Soup (widestSelection c8Soup)).length = 20 ∧
    hp_candidate_products c8Soup ≠ spec_candidate_products c8Soup := by
  refine ⟨by decide, by decide, by decide⟩

/-- A fold whose step only ever appends extends its initial list. -/
theorem foldl_extends {α β : Type} (f : List α → β → List α)
    (hf : ∀ acc b, ∃ t, f acc b = acc ++ t) :
    ∀ (l : List β) (init : List α), ∃ t, List.foldl f init l = init ++ t := by
  intro l
  induction l with
  | nil =>
    intro init
    exact ⟨[], (List.append_nil _).symm⟩
  | cons b bs ih =>
    intro init
    obtain ⟨t1, ht1⟩ := hf init b
    obtain ⟨t2, ht2⟩ := ih (f init b)
    refine ⟨t1 ++ t2, ?_⟩
    rw [List.foldl_cons, ht2, ht1, List.append_assoc]

/-- The ancestor walk only ever appends to the candidate list. -/
theorem walkUp_extends :
    ∀ (anc : List Node) (lv : Nat) (products : List Node),
      ∃ t, walkUp products anc lv = products ++ t := by
  intro anc
  induction anc with
  | nil =>
    intro lv products
    cases lv with
    | zero => exact ⟨[], (List.append_nil _).symm⟩
    | succ lv => exact ⟨[], (List.append_nil _).symm⟩
  | cons p ps ih =>
    intro lv products
    cases lv with
    | zero => exact ⟨[], (List.append_nil _).symm⟩
    | succ lv =>
      rw [walkUp]
      split
      · split
        · exact ih lv products
        · exact ⟨[p], rfl⟩
      · exact ih lv products

/-- Method 2 appends its finds to the current candidate list. -/
theorem method2Pass_extends (soup : Node) (products : List Node) :
    ∃ t, method2Pass soup products = products ++ t := by
  refine foldl_extends _ (fun acc b => ?_) _ products
  by_cases h : (searchPriceB (getText b).data && decide (20 < (getText b).length) &&
      decide ((getText b).length < 600) && !(acc.contains b)) = true
  · exact ⟨[b], by rw [if_pos h]⟩
  · exact ⟨[], by rw [if_neg h, List.append_nil]⟩

/-- Method 3 appends its finds to the current candidate list. -/
theorem method3Pass_extends (soup : Node) (products : List Node) :
    ∃ t, method3Pass soup products = products ++ t := by
  refine foldl_extends _ (fun acc ta => ?_) _ products
  by_cases h : searchPriceB ta.1.data = true
  · obtain ⟨t, ht⟩ := walkUp_extends ta.2 5 acc
    exact ⟨t, by rw [if_pos h]; exact ht⟩
  · exact ⟨[], by rw [if_neg h, List.append_nil]⟩

/-- Claim C8, amended part: when the widest selector set has fewer
than 20 candidates, the first fallback pass runs and appends its
finds; the second fallback pass also appends rather than replaces,
but it runs only if the candidate set is STILL below 20 after the
first pass — the code's pipeline is exactly this conditional. -/
theorem c8_fallback_amended (soup : Node)
    (h : (widestSelection soup).length < 20) :
    (∃ t2, method2Pass soup (widestSelection soup) = widestSelection soup ++ t2) ∧
    (∃ t3, method3Pass soup (method2Pass soup (widestSelection soup)) =
        method2Pass soup (widestSelection soup) ++ t3) ∧
    hp_candidate_products soup =
      (if (method2Pass soup (widestSelection soup)).length < 20 then
        method3Pass soup (method2Pass soup (widestSelection soup))
      else method2Pass soup (widestSelection soup)) := by
  refine ⟨method2Pass_extends soup _, method3Pass_extends soup _, ?_⟩
  simp only [hp_candidate_products]
  rw [if_pos h]

theorem c8_fallback_amended_witness :
    (widestSelection c8Soup).length < 20 ∧
    ((∃ t2, method2Pass c8Soup (widestSelection c8Soup) = widestSelection c8Soup ++ t2) ∧
      (∃ t3, method3Pass c8Soup (method2Pass c8Soup (widestSelection c8Soup)) =
          method2Pass c8Soup (widestSelection c8Soup) ++ t3) ∧
      hp_candidate_products c8Soup =
        (if (method2Pass c8Soup (widestSelection c8Soup)).length < 20 then
          method3Pass c8Soup (method2Pass c8Soup (widestSelection c8Soup))
        else method2Pass c8Soup (widestSelection c8Soup))) := by
  have h : (widestSelection c8Soup).length < 20 := by decide
  exact ⟨h, c8_fallback_amended c8Soup h⟩
